import Mathlib

/-!
Shallow embedding of the orchestrator core of the `agentic-pal` assistant.

The embedding models the tool catalog (`src/agent/tools/tool_definitions.py`,
`src/agent/tools/tool_index.py`), the discovery facade (`src/agent/tools/meta_tools.py`),
the graph state (`src/agent/graph/state.py`) and the graph nodes
(`src/agent/graph/nodes/*.py`).

Conventions of the embedding:
* Python dicts mapping strings to JSON-like values are modelled as association
  lists `List (String × Val)` that never hold a key twice; assignment keeps the
  position of an existing key and appends a fresh key, mirroring the insertion
  order semantics of Python dicts.
* Python functions returning dicts become functions returning `Val` or record
  types; exceptions of the tool executor are modelled by an outcome type.
* External capabilities (the language model, the three backing services) are
  parameters of the embedded functions, as the spec treats them as opaque
  capability contracts.
* Leading underscores of Python helper names are dropped (`_topological_sort`
  becomes `topological_sort`, and so on).
-/

/-- JSON-like values stored in action arguments and result payloads. -/
inductive Val where
  | vnull : Val
  | vbool (b : Bool) : Val
  | vstr (s : String) : Val
  | vnat (n : Nat) : Val
  | vdict (entries : List (String × Val)) : Val
  | vlist (items : List Val) : Val

/-- Python dict assignment `m[k] = v`: replace in place if the key exists,
append otherwise. -/
def dictSet (m : List (String × Val)) (k : String) (v : Val) : List (String × Val) :=
  if (m.lookup k).isSome then m.map (fun kv => if kv.1 = k then (k, v) else kv)
  else m ++ [(k, v)]

/-- Python `del m[k]`. -/
def dictDel (m : List (String × Val)) (k : String) : List (String × Val) :=
  m.filter (fun kv => kv.1 != k)

/-- Python `m.update(upd)`. -/
def dictUpdate (m : List (String × Val)) (upd : List (String × Val)) : List (String × Val) :=
  upd.foldl (fun acc kv => dictSet acc kv.1 kv.2) m

/-- Python `v.get(k)` on a dict value; `none` when the key is absent or the
value is not a dict. -/
def pyDictGet (v : Val) (k : String) : Option Val :=
  match v with
  | .vdict es => es.lookup k
  | _ => none

/-- Python `s.lower()` (ASCII case folding is all the orchestrator relies on). -/
def pyLower (s : String) : String := ⟨s.data.map Char.toLower⟩

/-- Python `s.strip()`: drop whitespace from both ends. -/
def pyStrip (s : String) : String :=
  ⟨((s.data.dropWhile Char.isWhitespace).reverse.dropWhile Char.isWhitespace).reverse⟩

/-- Code-point comparison of strings, the order Python's `sorted` uses on
`str`. Implemented structurally so that the kernel can evaluate it. -/
def charListLe : List Char → List Char → Bool
  | [], _ => true
  | _ :: _, [] => false
  | a :: as, b :: bs =>
    if a.toNat < b.toNat then true
    else if b.toNat < a.toNat then false
    else charListLe as bs

def strLe (a b : String) : Bool := charListLe a.data b.data

def insertSorted (x : String) : List String → List String
  | [] => [x]
  | y :: ys => if strLe x y then x :: y :: ys else y :: insertSorted x ys

/-- Python `sorted` on a collection of distinct strings. -/
def sortStrings (l : List String) : List String := l.foldr insertSorted []

/-- First-occurrence deduplication: the key order of a Python dict built by
repeated insertion, also used to model `list(set(...))` whose order CPython
leaves unspecified. -/
def firstKeys (l : List String) : List String :=
  l.foldl (fun acc x => if acc.contains x then acc else acc ++ [x]) []

/-- Python `q in s` substring test. -/
def strContains (hay pat : String) : Bool :=
  let rec go : List Char → Bool
    | [] => pat.data.isPrefixOf []
    | c :: cs => pat.data.isPrefixOf (c :: cs) || go cs
  go hay.data

-- ─────────────────────────────────────────────────────────────────────────────
-- Tool catalog (`tool_definitions.py` / `tool_index.py`)
-- ─────────────────────────────────────────────────────────────────────────────

/-- `ToolMetadata` from `tool_index.py`: the lightweight discovery view of a
`ToolDefinition` (the full definition additionally carries the long
description and the Pydantic parameter schema, which the embedded operations
never consult). -/
structure ToolMetadata where
  name : String
  summary : String
  category : String
  actions : List String
  is_write : Bool

/-- `TOOL_INDEX`, derived at import time from `TOOL_DEFINITIONS`; entries keep
the catalog's insertion order. -/
def TOOL_INDEX : List (String × ToolMetadata) :=
  [ ("add_calendar_event",
     ⟨"add_calendar_event", "Create a new calendar event with title, time, and optional attendees",
      "calendar", ["create", "write"], true⟩),
    ("delete_calendar_event",
     ⟨"delete_calendar_event", "Delete a calendar event by its ID",
      "calendar", ["delete", "write"], true⟩),
    ("search_calendar_events",
     ⟨"search_calendar_events", "Search for events by title keyword",
      "calendar", ["search", "read"], false⟩),
    ("list_calendar_events",
     ⟨"list_calendar_events", "List upcoming calendar events in a time range",
      "calendar", ["list", "read"], false⟩),
    ("update_calendar_event",
     ⟨"update_calendar_event", "Update an existing calendar event's details",
      "calendar", ["update", "write"], true⟩),
    ("create_task",
     ⟨"create_task", "Create a new task/todo item with optional due date",
      "tasks", ["create", "write"], true⟩),
    ("list_tasks",
     ⟨"list_tasks", "List tasks from a task list",
      "tasks", ["list", "read"], false⟩),
    ("mark_task_complete",
     ⟨"mark_task_complete", "Mark a task as completed/done",
      "tasks", ["update", "write"], true⟩),
    ("mark_task_incomplete",
     ⟨"mark_task_incomplete", "Mark a task as incomplete/not done",
      "tasks", ["update", "write"], true⟩),
    ("delete_task",
     ⟨"delete_task", "Delete a task by its ID",
      "tasks", ["delete", "write"], true⟩),
    ("update_task",
     ⟨"update_task", "Update a task's title, due date, or notes",
      "tasks", ["update", "write"], true⟩),
    ("get_task_lists",
     ⟨"get_task_lists", "Get all available task lists",
      "tasks", ["list", "read"], false⟩),
    ("read_emails",
     ⟨"read_emails", "Read/list recent emails with optional filters",
      "gmail", ["list", "read"], false⟩),
    ("get_email_details",
     ⟨"get_email_details", "Get full details of a specific email including body",
      "gmail", ["read"], false⟩),
    ("summarize_weekly_emails",
     ⟨"summarize_weekly_emails", "Get a summary of emails from the past week",
      "gmail", ["read", "summarize"], false⟩),
    ("search_emails",
     ⟨"search_emails", "Search emails using Gmail search syntax",
      "gmail", ["search", "read"], false⟩),
    ("list_unread_emails",
     ⟨"list_unread_emails", "List unread emails from inbox",
      "gmail", ["list", "read"], false⟩) ]

/-- `DESTRUCTIVE_TOOLS` as listed in both `plan_actions.py` and
`confirm_actions.py` (there as the key set of a name → item-kind map). -/
def DESTRUCTIVE_TOOLS : List String := ["delete_calendar_event", "delete_task"]

/-- `discover_tools` from `tool_index.py`: intersect the category, action and
keyword filters (a `None` or empty filter is skipped, mirroring Python
truthiness) and return the surviving metadata sorted by tool name. The Python
code computes the category/action sets through the derived `BY_CATEGORY` /
`BY_ACTION` indexes; since those indexes are exact inverses of the metadata
fields, membership of a tool in the union over the requested keys is the
predicate used here. -/
def discover_tools (categories : Option (List String)) (actionFilters : Option (List String))
    (query : Option String) : List ToolMetadata :=
  let keep1 : ToolMetadata → Bool := fun m =>
    match categories with
    | some cats => if cats.isEmpty then true else cats.contains m.category
    | none => true
  let keep2 : ToolMetadata → Bool := fun m =>
    match actionFilters with
    | some acts => if acts.isEmpty then true else m.actions.any (fun a => acts.contains a)
    | none => true
  let keep3 : ToolMetadata → Bool := fun m =>
    match query with
    | some q =>
      if q == "" then true
      else strContains (pyLower m.name) (pyLower q) || strContains (pyLower m.summary) (pyLower q)
    | none => true
  let names := (TOOL_INDEX.filter (fun kv => keep1 kv.2 && keep2 kv.2 && keep3 kv.2)).map (·.1)
  (sortStrings names).filterMap (fun n => TOOL_INDEX.lookup n)

-- ─────────────────────────────────────────────────────────────────────────────
-- Discovery facade `invoke` (`meta_tools.py`, MetaTools.invoke_tool)
-- ─────────────────────────────────────────────────────────────────────────────

/-- The stashed pending call (`MetaTools._pending_confirmation`). -/
structure PendingCall where
  tool_name : String
  parameters : List (String × Val)
  summary : String

/-- What a call to `MetaTools.invoke_tool` does: either it returns the
`pending_confirmation` marker dict without touching the registry, or it
dispatches `tool_name`/`parameters` to `tool_registry.execute_tool` (the
Capability Invoker boundary) and returns that result. -/
inductive InvokeOutcome where
  | marker (response : Val)
  | executed (tool_name : String) (parameters : List (String × Val))

/-- `MetaTools.invoke_tool`: for a catalog tool that is write-classified and
carries a delete action, stash the call and return the marker; otherwise
dispatch to the registry's execute path. Returns the outcome together with
the new stash. -/
def invoke_tool (pending : Option PendingCall) (tool_name : String)
    (parameters : List (String × Val)) : InvokeOutcome × Option PendingCall :=
  match TOOL_INDEX.lookup tool_name with
  | some meta =>
    if meta.is_write && meta.actions.contains "delete" then
      (InvokeOutcome.marker (Val.vdict
        [ ("status", Val.vstr "pending_confirmation"),
          ("tool_name", Val.vstr tool_name),
          ("parameters", Val.vdict parameters),
          ("message", Val.vstr "This action requires user confirmation before execution") ]),
       some ⟨tool_name, parameters, "Delete operation: " ++ tool_name⟩)
    else (InvokeOutcome.executed tool_name parameters, pending)
  | none => (InvokeOutcome.executed tool_name parameters, pending)

-- ─────────────────────────────────────────────────────────────────────────────
-- Graph state (`state.py`)
-- ─────────────────────────────────────────────────────────────────────────────

/-- An action dict as produced by the planner nodes: `id`, `tool`, `args`,
`depends_on`, plus the `pending_confirmation` key that the planner sets on
destructive actions (absent ≈ `false` for the others). -/
structure ActionT where
  id : String
  tool : String
  args : List (String × Val) := []
  depends_on : List String := []
  pending_confirmation : Bool := false

/-- `AgentState` (`state.py`), restricted to the fields the orchestrator nodes
read or write. Optional fields are `Option`s; `total=False` dict access with a
default is modelled by the corresponding `getD`/default. -/
structure AgentState where
  user_message : String := ""
  actions : List ActionT := []
  requires_confirmation : Bool := false
  execution_mode : String := "parallel"
  results : List (String × Val) := []
  pending_confirmation : Option (List ActionT) := none
  user_confirmation : Option String := none
  confirmation_message : Option String := none
  final_response : Option String := none
  discovered_tools : List String := []
  tool_invocations : List ActionT := []
  error : Option String := none

-- ─────────────────────────────────────────────────────────────────────────────
-- Execution router (`route_execution.py`)
-- ─────────────────────────────────────────────────────────────────────────────

/-- `route_execution`: set `execution_mode` from the confirmation flag and the
presence of a non-empty `depends_on` (Python truthiness of the list). -/
def route_execution (state : AgentState) : AgentState :=
  let execution_mode :=
    if state.requires_confirmation then "confirm"
    else if state.actions.any (fun a => !a.depends_on.isEmpty) then "sequential"
    else "parallel"
  { state with execution_mode := execution_mode }

/-- `_route_after_execution` from `graph_builder.py`: the conditional edge
taken after the router node. -/
def route_after_execution (state : AgentState) : String :=
  if state.execution_mode == "confirm" then "confirm_actions"
  else if state.execution_mode == "sequential" then "execute_sequential"
  else "execute_parallel"

-- ─────────────────────────────────────────────────────────────────────────────
-- Confirmation gate (`confirm_actions.py`)
-- ─────────────────────────────────────────────────────────────────────────────

/-- `process_confirmation`: dispatch on the lowercased, stripped user reply. -/
def process_confirmation (state : AgentState) : AgentState :=
  let user_confirmation := pyStrip (pyLower (state.user_confirmation.getD ""))
  let actions := state.actions
  if ["yes", "y", "confirm", "ok", "proceed"].contains user_confirmation then
    { state with requires_confirmation := false, pending_confirmation := none }
  else if ["no", "n", "cancel", "abort"].contains user_confirmation then
    let non_destructive := actions.filter (fun a => !DESTRUCTIVE_TOOLS.contains a.tool)
    { state with actions := non_destructive,
                 requires_confirmation := false,
                 pending_confirmation := none,
                 confirmation_message := some "Operation cancelled." }
  else if user_confirmation == "edit" then
    { state with confirmation_message := some "Please specify what you'd like to change." }
  else
    { state with confirmation_message := some "Please reply **yes** to confirm or **no** to cancel." }

-- ─────────────────────────────────────────────────────────────────────────────
-- Executors (`execute_tools.py`)
-- ─────────────────────────────────────────────────────────────────────────────

/-- Outcome of one `tool_executor(name, args)` call in the sequential path:
the returned result dict, or a raised exception (whose `str` is kept). -/
inductive SeqOutcome where
  | ok (result : Val)
  | exn (msg : String)

/-- Outcome of one submitted future in the parallel path: result, raised
exception, or a 30s timeout of `future.result`. -/
inductive ParOutcome where
  | ok (result : Val)
  | exn (msg : String)
  | timeout

/-- The result dict recorded for one future by `execute_tools_parallel`'s
collection loop (lines 107-121). -/
def future_result : ParOutcome → Val
  | .ok r => r
  | .timeout => Val.vdict
      [ ("success", Val.vbool false),
        ("error", Val.vstr "Tool execution timed out"),
        ("message", Val.vstr "The operation took too long to complete") ]
  | .exn e => Val.vdict
      [ ("success", Val.vbool false),
        ("error", Val.vstr e),
        ("message", Val.vstr ("Tool execution failed: " ++ e)) ]

/-- The result dict recorded for one call by `execute_tools_sequential`'s
try/except (lines 153-164). -/
def tool_exec_result : SeqOutcome → Val
  | .ok r => r
  | .exn e => Val.vdict
      [ ("success", Val.vbool false),
        ("error", Val.vstr e),
        ("message", Val.vstr ("Tool execution failed: " ++ e)) ]

/-- The `(id, (tool, args))` pairs `execute_tools_parallel` submits to the
thread pool (lines 98-104), in submission order. -/
def parallel_submissions (state : AgentState) : List (String × String × List (String × Val)) :=
  state.actions.map (fun a => (a.id, a.tool, a.args))

/-- `execute_tools_parallel`. The thread pool fans out one `tool_executor`
call per action and the collection loop writes one result dict per future,
keyed by action id, in submission order; since each future's outcome depends
only on its own call, the fan-out/fan-in is modelled by folding the
per-action outcomes in submission order into the results dict. -/
def execute_tools_parallel (state : AgentState)
    (tool_executor : String → List (String × Val) → ParOutcome) : AgentState :=
  let actions := state.actions
  let results := state.results
  if actions.isEmpty then { state with results := results }
  else
    let results := actions.foldl
      (fun res a => dictSet res a.id (future_result (tool_executor a.tool a.args))) results
    { state with results := results }

/-- `value in results` check of `_inject_dependencies`: only a string that is
a key of the results dict can match. -/
def valIsResultKey (results : List (String × Val)) : Val → Bool
  | .vstr s => (results.lookup s).isSome
  | _ => false

/-- `results[value].get("data", results[value])`: the referenced result's
payload, defaulting to the whole result dict. (Only reached when
`valIsResultKey` holds, so the `vnull` fallbacks are inert.) -/
def resultPayload (results : List (String × Val)) : Val → Val
  | .vstr s =>
    match results.lookup s with
    | some r => (pyDictGet r "data").getD r
    | none => Val.vnull
  | _ => Val.vnull

/-- `results[value].get("data", {})` of the `from_result` branch. -/
def resultPayloadD (results : List (String × Val)) : Val → Val
  | .vstr s =>
    match results.lookup s with
    | some r => (pyDictGet r "data").getD (Val.vdict [])
    | none => Val.vdict []
  | _ => Val.vdict []

/-- `_inject_dependencies`: iterate over a snapshot of the argument items;
an argument value that is a key of `results` is replaced by that result's
payload; otherwise, an argument under the key `from_result` whose value is a
key of `results` has the payload merged into the args and the key deleted.
(The `elif` ordering is kept exactly as in the source.) -/
def inject_dependencies (action : ActionT) (results : List (String × Val)) : ActionT :=
  let args := action.args.foldl
    (fun args kv =>
      if valIsResultKey results kv.2 then
        dictSet args kv.1 (resultPayload results kv.2)
      else if kv.1 == "from_result" && valIsResultKey results kv.2 then
        let result_data := resultPayloadD results kv.2
        let args := match result_data with
          | .vdict es => dictUpdate args es
          | _ => args
        dictDel args "from_result"
      else args)
    action.args
  { action with args := args }

/-- `action_map` of `_topological_sort`: a dict comprehension keyed by id
(a later duplicate id overwrites an earlier one, hence `getLast?`). -/
def action_map (actions : List ActionT) (i : String) : Option ActionT :=
  (actions.filter (fun a => a.id == i)).getLast?

/-- `in_degree` as initialised by `_topological_sort`: the full length of the
action's `depends_on` list (dependencies pointing outside the plan are counted
here but never decremented). Kept as `Int` because Python decrements below
zero without clamping. -/
def initial_in_degree (actions : List ActionT) (i : String) : Int :=
  match action_map actions i with
  | some a => a.depends_on.length
  | none => 0

/-- `dependents` of `_topological_sort`: for each occurrence of `d` in some
action's `depends_on`, that action's id is appended (the Python guard
`if dep_id in dependents` only skips keys outside the plan, which the loop
never reads). -/
def dependents_of (actions : List ActionT) (d : String) : List String :=
  actions.foldl (fun acc a => acc ++ List.replicate (a.depends_on.count d) a.id) []

/-- One `for dependent in dependents[current]` iteration of Kahn's loop:
decrement the dependent's in-degree and enqueue it when it reaches zero. -/
def kahn_step (p : (String → Int) × List String) (v : String) : (String → Int) × List String :=
  let d := p.1 v - 1
  (fun w => if w = v then d else p.1 w, if d = 0 then p.2 ++ [v] else p.2)

/-- The `while queue:` loop of `_topological_sort`. The loop pops one queue
element per iteration and every distinct id is enqueued at most once (degrees
only ever decrease, so they pass through zero at most once), so the number of
iterations is bounded by the number of distinct ids; `actions.length` fuel is
therefore exact. -/
def kahnLoop (amap : String → Option ActionT) (deps : String → List String) :
    Nat → List String → (String → Int) → List ActionT → List ActionT
  | 0, _, _, sorted => sorted
  | _ + 1, [], _, sorted => sorted
  | fuel + 1, current :: rest, deg, sorted =>
    let sorted' := sorted ++ (amap current).toList
    let p := (deps current).foldl kahn_step (deg, rest)
    kahnLoop amap deps fuel p.2 p.1 sorted'

/-- `_topological_sort`: Kahn's algorithm with a FIFO queue seeded with the
zero-in-degree ids in plan order (dict key iteration order). Nodes still
carrying a nonzero in-degree when the queue drains are silently absent from
the returned list. -/
def topological_sort (actions : List ActionT) : List ActionT :=
  let queue := (firstKeys (actions.map (fun a => a.id))).filter
    (fun i => initial_in_degree actions i == 0)
  kahnLoop (action_map actions) (dependents_of actions) actions.length queue
    (initial_in_degree actions) []

/-- `execute_tools_sequential`: topologically sort, then execute one action at
a time, resolving dependency references against the results accumulated so
far; an exception is converted to a failed result for that action only. -/
def execute_tools_sequential (state : AgentState)
    (tool_executor : String → List (String × Val) → SeqOutcome) : AgentState :=
  let actions := state.actions
  let results := state.results
  if actions.isEmpty then { state with results := results }
  else
    let sorted := topological_sort actions
    let results := sorted.foldl
      (fun res a =>
        let resolved := inject_dependencies a res
        dictSet res a.id (tool_exec_result (tool_executor resolved.tool resolved.args)))
      results
    { state with results := results }

-- ─────────────────────────────────────────────────────────────────────────────
-- Synthesizer (`synthesize_response.py`)
-- ─────────────────────────────────────────────────────────────────────────────

/-- Python truthiness of an optional string field (`None` and `""` are falsy). -/
def truthyOptStr : Option String → Bool
  | some s => s != ""
  | none => false

/-- Python truthiness of the `pending_confirmation` state field (`None` and
the empty list are falsy). -/
def truthyPending : Option (List ActionT) → Bool
  | some l => !l.isEmpty
  | none => false

/-- One entry of the `results_summary` both synthesizer strategies build:
tool name, success flag, message, the full result dict, and the error. -/
def summary_entry (results : List (String × Val)) (a : ActionT) : Val :=
  let r := (results.lookup a.id).getD (Val.vdict [])
  Val.vdict
    [ ("tool", Val.vstr a.tool),
      ("success", (pyDictGet r "success").getD (Val.vbool false)),
      ("message", (pyDictGet r "message").getD (Val.vstr "")),
      ("result", r),
      ("error", (pyDictGet r "error").getD Val.vnull) ]

def build_results_summary (actions : List ActionT) (results : List (String × Val)) : List Val :=
  actions.map (summary_entry results)

/-- The two shapes of language-model call the legacy synthesizer can make:
a plain conversational reply, or a synthesis over the results summary. -/
inductive SynthCall where
  | conversational (user_message : String)
  | summarize (user_message : String) (results_summary : List Val)

/-- `_synthesize_response_legacy`: the four input cases in fixed precedence.
The language model is the external capability `llm`. -/
def synthesize_response_legacy (state : AgentState) (llm : SynthCall → String) : AgentState :=
  if truthyOptStr state.confirmation_message && truthyPending state.pending_confirmation then
    { state with final_response := state.confirmation_message }
  else if truthyOptStr state.error then
    { state with final_response := some ("I encountered an error: " ++
        state.error.getD "" ++ ". Please try again.") }
  else if state.actions.isEmpty then
    { state with final_response := some (llm (SynthCall.conversational state.user_message)) }
  else
    { state with final_response := some (llm (SynthCall.summarize state.user_message
        (build_results_summary state.actions state.results))) }

/-- The three DSPy modules `_synthesize_response_dspy` can call, as external
capabilities: error recovery over (user_request, error_message, tool_name),
a conversational reply, and results synthesis over (user_request, summary).
The modules are modelled as total functions, so the `except` fallbacks of the
Python code are unreachable. -/
structure DspyModules where
  errorRecovery : String → String → String → String
  conversational : String → String
  responseSynthesis : String → List Val → String

/-- `_synthesize_response_dspy`: same four cases, same precedence, with the
model calls routed through the DSPy modules (`tool_name` is passed as the
literal `"unknown"`). -/
def synthesize_response_dspy (state : AgentState) (m : DspyModules) : AgentState :=
  if truthyOptStr state.confirmation_message && truthyPending state.pending_confirmation then
    { state with final_response := state.confirmation_message }
  else if truthyOptStr state.error then
    { state with final_response := some (m.errorRecovery state.user_message
        (state.error.getD "") "unknown") }
  else if state.actions.isEmpty then
    { state with final_response := some (m.conversational state.user_message) }
  else
    { state with final_response := some (m.responseSynthesis state.user_message
        (build_results_summary state.actions state.results)) }

-- ─────────────────────────────────────────────────────────────────────────────
-- Planner (`plan_actions.py`)
-- ─────────────────────────────────────────────────────────────────────────────

/-- A meta-tool call proposed by the language model, after the planner has
read `name` and `args` out of the call dict. An unrecognized name (legacy
mode feeds an inline error back to the model; DSPy mode skips it) leaves the
accumulated plan untouched either way. -/
inductive MetaCall where
  | discover (categories : Option (List String)) (actionFilters : Option (List String))
      (query : Option String)
  | schema (tool_name : String)
  | invoke (tool_name : String) (parameters : List (String × Val))
  | unknownTool (name : String)

/-- The plan both planner strategies accumulate: `actions`, `results`,
`requires_confirmation`, `discovered_tools` (before the final
`list(set(...))`). -/
structure PlanAcc where
  actions : List ActionT := []
  results : List (String × Val) := []
  requires_confirmation : Bool := false
  discovered_tools : List String := []

/-- Processing of one proposed meta-tool call, identical in
`_plan_actions_dspy` (lines 107-140) and `_plan_actions_legacy`
(lines 226-275): a destructive `invoke_tool` records a provisional action
with `pending_confirmation=True` and raises the plan-level confirmation
flag; any other `invoke_tool` goes through the discovery facade (whose
result, for a non-destructive tool, is the registry execution modelled by
the external capability `invoke_result`) and records a completed action
with its result keyed by the fresh id `a{len+1}`. The facade stash is
passed as `none` because `MetaTools.invoke_tool` never reads it. -/
def plan_step (invoke_result : String → List (String × Val) → Val)
    (acc : PlanAcc) (call : MetaCall) : PlanAcc :=
  match call with
  | .discover cats acts q =>
    { acc with discovered_tools :=
        acc.discovered_tools ++ (discover_tools cats acts q).map (fun m => m.name) }
  | .schema _ => acc
  | .invoke tool params =>
    if DESTRUCTIVE_TOOLS.contains tool then
      { acc with requires_confirmation := true,
                 actions := acc.actions ++
                   [{ id := "a" ++ Nat.repr (acc.actions.length + 1), tool := tool,
                      args := params, depends_on := [], pending_confirmation := true }] }
    else
      let r := match (invoke_tool none tool params).1 with
        | .marker m => m
        | .executed t p => invoke_result t p
      let aid := "a" ++ Nat.repr (acc.actions.length + 1)
      { acc with actions := acc.actions ++
                   [{ id := aid, tool := tool, args := params, depends_on := [],
                      pending_confirmation := false }],
                 results := dictSet acc.results aid r }
  | .unknownTool _ => acc

/-- `_plan_actions_dspy`, happy path: the parsed `planned_calls` list is
processed in order; the state's `actions`/`results` are replaced by the
freshly accumulated ones. `list(set(discovered_tools))` is modelled as
first-occurrence deduplication (CPython leaves the set order unspecified). -/
def plan_actions_dspy (state : AgentState)
    (invoke_result : String → List (String × Val) → Val)
    (planned_calls : List MetaCall) : AgentState :=
  let out := planned_calls.foldl (plan_step invoke_result) {}
  { state with actions := out.actions, results := out.results,
               requires_confirmation := out.requires_confirmation,
               discovered_tools := firstKeys out.discovered_tools,
               tool_invocations := out.actions }

/-- The `for iteration in range(max_iterations)` dialogue loop of
`_plan_actions_legacy`: each element of `iterations` is the batch of tool
calls the model proposed in one iteration; an empty batch breaks the loop,
and an exhausted input stands for the model proposing no further calls. -/
def legacy_loop (invoke_result : String → List (String × Val) → Val) :
    Nat → List (List MetaCall) → PlanAcc → PlanAcc
  | 0, _, acc => acc
  | _ + 1, [], acc => acc
  | fuel + 1, calls :: rest, acc =>
    if calls.isEmpty then acc
    else legacy_loop invoke_result fuel rest (calls.foldl (plan_step invoke_result) acc)

/-- `_plan_actions_legacy` with its `max_iterations = 10` cap. -/
def plan_actions_legacy (state : AgentState)
    (invoke_result : String → List (String × Val) → Val)
    (iterations : List (List MetaCall)) : AgentState :=
  let out := legacy_loop invoke_result 10 iterations {}
  { state with actions := out.actions, results := out.results,
               requires_confirmation := out.requires_confirmation,
               discovered_tools := firstKeys out.discovered_tools,
               tool_invocations := out.actions }

-- ─────────────────────────────────────────────────────────────────────────────
-- Graph wiring of one turn (`graph_builder.py`)
-- ─────────────────────────────────────────────────────────────────────────────

/-- The `plan_actions → route_execution → execute_parallel` leg of the graph
(`build_agent_graph` edges, lines 80-101), for a turn whose router picks the
parallel branch: plan (DSPy strategy), route, then dispatch per
`_route_after_execution`; non-parallel branches stop at the router here. -/
def run_parallel_turn (state : AgentState)
    (invoke_result : String → List (String × Val) → Val)
    (planned_calls : List MetaCall)
    (tool_executor : String → List (String × Val) → ParOutcome) : AgentState :=
  let planned := plan_actions_dspy state invoke_result planned_calls
  let routed := route_execution planned
  if route_after_execution routed == "execute_parallel" then
    execute_tools_parallel routed tool_executor
  else routed

-- ─────────────────────────────────────────────────────────────────────────────
-- Statement vocabulary
-- ─────────────────────────────────────────────────────────────────────────────

/-- The ids of a plan's actions, in plan order. -/
def planIds (actions : List ActionT) : List String := actions.map (fun a => a.id)

/-- The spec's §3 invariant: `depends_on` references only ids of the plan. -/
def depsClosed (actions : List ActionT) : Prop :=
  ∀ a ∈ actions, ∀ d ∈ a.depends_on, d ∈ planIds actions

/-- Acyclicity of the `depends_on` relation, witnessed by a rank function that
strictly decreases along dependencies. -/
def acyclicRank (actions : List ActionT) : Prop :=
  ∃ rank : String → Nat, ∀ a ∈ actions, ∀ d ∈ a.depends_on, rank d < rank a.id

/-- Fallback used when reading an id that is not in the plan (never happens
under the hypotheses of the theorems below). -/
def defaultAction : ActionT := { id := "", tool := "" }

/-- The unique action of a plan carrying a given id. -/
def theAct (actions : List ActionT) (i : String) : ActionT :=
  (action_map actions i).getD defaultAction

/-- The route table exactly as §4.3 words it, over the two derived booleans
(spec-side definition, compared against `route_execution` in C5). -/
def route_mode_table (requires_confirmation has_dependency : Bool) : String :=
  if requires_confirmation then "confirm"
  else if has_dependency then "sequential"
  else "parallel"

-- ─────────────────────────────────────────────────────────────────────────────
-- Concrete fixtures for counterexamples and witnesses
-- ─────────────────────────────────────────────────────────────────────────────

/-- Scenario of §8 item 6: two actions depending on each other. -/
def cycle_a1 : ActionT := { id := "a1", tool := "create_task", depends_on := ["a2"] }

def cycle_a2 : ActionT := { id := "a2", tool := "update_task", depends_on := ["a1"] }

def cycle_state : AgentState :=
  { user_message := "chain the two tasks", actions := [cycle_a1, cycle_a2] }

/-- An action whose `from_result` argument references an executed action. -/
def fr_action : ActionT :=
  { id := "a2", tool := "update_task", args := [("from_result", Val.vstr "a1")] }

def fr_results : List (String × Val) :=
  [("a1", Val.vdict [("success", Val.vbool true),
                     ("data", Val.vdict [("task_id", Val.vstr "t42")])])]

/-- A cyclic plan plus one independent action whose execution raises. -/
def fault_a3 : ActionT := { id := "a3", tool := "list_tasks" }

def fault_state : AgentState :=
  { user_message := "do all three", actions := [cycle_a1, cycle_a2, fault_a3] }

def fault_executor : String → List (String × Val) → SeqOutcome := fun tool _ =>
  if tool == "list_tasks" then SeqOutcome.exn "boom"
  else SeqOutcome.ok (Val.vdict [("success", Val.vbool true)])

/-- A destructive action as the planner records it, and the suspended state
awaiting the user's reply. -/
def pending_delete : ActionT :=
  { id := "a1", tool := "delete_task", args := [("task_id", Val.vstr "t1")],
    pending_confirmation := true }

def confirm_state : AgentState :=
  { user_message := "delete the budget task",
    actions := [pending_delete],
    requires_confirmation := true,
    pending_confirmation := some [pending_delete],
    confirmation_message := some "**Confirmation Required**",
    user_confirmation := some "yes" }

/-- A two-action dependent plan (§8 scenario 5 shape) with an explicit rank. -/
def chain_a1 : ActionT := { id := "a1", tool := "create_task" }

def chain_a2 : ActionT :=
  { id := "a2", tool := "update_task", args := [("from_result", Val.vstr "a1")],
    depends_on := ["a1"] }

def chain_rank : String → Nat := fun i => if i = "a1" then 0 else 1

/-- States exercising the synthesizer cases. -/
def synth_pending_state : AgentState :=
  { user_message := "delete it",
    actions := [pending_delete],
    pending_confirmation := some [pending_delete],
    confirmation_message := some "**Confirmation Required**" }

def synth_done_state : AgentState :=
  { user_message := "list my tasks",
    actions := [fault_a3],
    results := [("a3", Val.vdict [("success", Val.vbool true),
                                  ("message", Val.vstr "2 tasks")])] }

/-- Pipeline fixtures: a state whose plan was already executed once during
planning, and a planner transcript with one non-destructive invocation. -/
def replay_state : AgentState :=
  { user_message := "list my tasks",
    actions := [fault_a3],
    results := [("a3", Val.vdict [("success", Val.vbool true),
                                  ("message", Val.vstr "stale")])] }

def replay_calls : List MetaCall := [MetaCall.invoke "list_tasks" []]

def replay_invoke_result : String → List (String × Val) → Val := fun _ _ =>
  Val.vdict [("success", Val.vbool true), ("message", Val.vstr "fresh from planning")]

def replay_executor : String → List (String × Val) → ParOutcome := fun _ _ =>
  ParOutcome.ok (Val.vdict [("success", Val.vbool true),
                            ("message", Val.vstr "fresh from execution")])

/-- The single action the DSPy planner emits for `replay_calls`. -/
def replay_planned_action : ActionT := { id := "a1", tool := "list_tasks" }

/-- A state over the dependent two-action chain, and executors that make
exactly the first action fail (exception in the sequential path, timeout in
the parallel one). -/
def chain_state : AgentState :=
  { user_message := "create a task, then update it", actions := [chain_a1, chain_a2] }

def chain_par_executor : String → List (String × Val) → ParOutcome := fun tool _ =>
  if tool == "create_task" then ParOutcome.timeout
  else ParOutcome.ok (Val.vdict [("success", Val.vbool true)])

def chain_seq_executor : String → List (String × Val) → SeqOutcome := fun tool _ =>
  if tool == "create_task" then SeqOutcome.exn "boom"
  else SeqOutcome.ok (Val.vdict [("success", Val.vbool true)])

/-- Decimal decoding, the left inverse used to prove `Nat.repr` injective
(needed for the uniqueness of the planner's generated `a{n}` action ids). -/
def decodeDigits (l : List Char) : Nat := l.foldl (fun a c => a * 10 + (c.toNat - 48)) 0

-- ─────────────────────────────────────────────────────────────────────────────
-- Association-list (Python dict) lemmas
-- ─────────────────────────────────────────────────────────────────────────────

theorem lookup_cons_pair (k k₁ : String) (v₁ : Val) (rest : List (String × Val)) :
    List.lookup k ((k₁, v₁) :: rest) = if k = k₁ then some v₁ else List.lookup k rest := by
  by_cases h : k = k₁
  · simp [List.lookup, h]
  · have hb : (k == k₁) = false := beq_eq_false_iff_ne.mpr h
    simp [List.lookup, h, hb]

theorem lookup_map_replace (m : List (String × Val)) (k : String) (v : Val)
    (h : (m.lookup k).isSome = true) :
    ((m.map (fun kv => if kv.1 = k then (k, v) else kv)).lookup k) = some v := by
  induction m with
  | nil => simp [List.lookup] at h
  | cons kv rest ih =>
    obtain ⟨k₁, v₁⟩ := kv
    by_cases hk : k₁ = k
    · subst hk
      simp [lookup_cons_pair]
    · rw [lookup_cons_pair k k₁ v₁ rest, if_neg (fun he => hk he.symm)] at h
      have step : ((k₁, v₁) :: rest).map (fun kv => if kv.1 = k then (k, v) else kv) =
          (k₁, v₁) :: rest.map (fun kv => if kv.1 = k then (k, v) else kv) := by
        simp [hk]
      rw [step, lookup_cons_pair, if_neg (fun he => hk he.symm)]
      exact ih h

theorem lookup_append_left_none (m tail : List (String × Val)) (k : String)
    (h : m.lookup k = none) :
    ((m ++ tail).lookup k) = tail.lookup k := by
  induction m with
  | nil => simp
  | cons kv rest ih =>
    obtain ⟨k₁, v₁⟩ := kv
    rw [lookup_cons_pair] at h
    by_cases hk : k = k₁
    · simp [hk] at h
    · rw [if_neg hk] at h
      rw [List.cons_append, lookup_cons_pair, if_neg hk]
      exact ih h

theorem lookup_dictSet_self (m : List (String × Val)) (k : String) (v : Val) :
    ((dictSet m k v).lookup k) = some v := by
  unfold dictSet
  by_cases h : (m.lookup k).isSome = true
  · simpa [h] using lookup_map_replace m k v h
  · have hn : m.lookup k = none := by
      cases hh : m.lookup k with
      | none => rfl
      | some w => simp [hh] at h
    rw [if_neg (by simp [h]), lookup_append_left_none m _ k hn, lookup_cons_pair]
    simp

theorem lookup_map_replace_ne (m : List (String × Val)) (k k' : String) (v : Val)
    (h : k' ≠ k) :
    ((m.map (fun kv => if kv.1 = k then (k, v) else kv)).lookup k') = m.lookup k' := by
  induction m with
  | nil => simp
  | cons kv rest ih =>
    obtain ⟨k₁, v₁⟩ := kv
    by_cases hk : k₁ = k
    · have step : ((k₁, v₁) :: rest).map (fun kv => if kv.1 = k then (k, v) else kv) =
          (k, v) :: rest.map (fun kv => if kv.1 = k then (k, v) else kv) := by
        simp [hk]
      rw [step, lookup_cons_pair, lookup_cons_pair, if_neg h, hk, if_neg h]
      exact ih
    · have step : ((k₁, v₁) :: rest).map (fun kv => if kv.1 = k then (k, v) else kv) =
          (k₁, v₁) :: rest.map (fun kv => if kv.1 = k then (k, v) else kv) := by
        simp [hk]
      rw [step, lookup_cons_pair, lookup_cons_pair]
      by_cases hk3 : k' = k₁
      · simp [hk3]
      · rw [if_neg hk3, if_neg hk3]
        exact ih

theorem lookup_append_some (m tail : List (String × Val)) (k : String) (w : Val)
    (h : m.lookup k = some w) : ((m ++ tail).lookup k) = some w := by
  induction m with
  | nil => simp [List.lookup] at h
  | cons kv rest ih =>
    obtain ⟨k₁, v₁⟩ := kv
    rw [lookup_cons_pair] at h
    rw [List.cons_append, lookup_cons_pair]
    by_cases hk : k = k₁
    · rwa [if_pos hk] at h ⊢
    · rw [if_neg hk] at h ⊢
      exact ih h

theorem lookup_dictSet_ne (m : List (String × Val)) (k k' : String) (v : Val)
    (h : k' ≠ k) : ((dictSet m k v).lookup k') = m.lookup k' := by
  unfold dictSet
  by_cases hs : (m.lookup k).isSome = true
  · rw [if_pos (by simp [hs])]
    exact lookup_map_replace_ne m k k' v h
  · rw [if_neg (by simp [hs])]
    cases hh : m.lookup k' with
    | some w => exact lookup_append_some m _ k' w hh
    | none =>
      rw [lookup_append_left_none m _ k' hh, lookup_cons_pair, if_neg h]
      simp [List.lookup]

theorem lookup_dictSet_isSome_mono (m : List (String × Val)) (k k' : String) (v : Val)
    (h : (m.lookup k').isSome = true) : ((dictSet m k v).lookup k').isSome = true := by
  by_cases hk : k' = k
  · subst hk
    simp [lookup_dictSet_self]
  · rw [lookup_dictSet_ne m k k' v hk]
    exact h

-- ─────────────────────────────────────────────────────────────────────────────
-- C5, C2, C3
-- ─────────────────────────────────────────────────────────────────────────────

/-- C5: `route_execution` changes only `execution_mode`, and the new mode is a
pure function of exactly the two derived booleans — the plan's
`requires_confirmation` flag and whether any action has a non-empty
`depends_on` — following the table `confirm` over `sequential` over
`parallel`. -/
theorem c5_route_execution_pure_table (state : AgentState) :
    route_execution state =
      { state with execution_mode := (route_mode_table state.requires_confirmation
          (state.actions.any (fun a => !a.depends_on.isEmpty))) } := rfl

/-- C2 (code bug): on the two-action cycle of §8 scenario 6 the sequential
executor does not surface any structural error: Kahn's queue drains with both
nodes still at nonzero in-degree, `_topological_sort` returns the empty list,
and `execute_tools_sequential` hands the state back unchanged — no action
executed, no `Result` recorded, and the plan-level `error` still unset —
instead of reporting the Planner defect as the spec requires. -/
theorem c2_cycle_drops_actions_without_error
    (tool_executor : String → List (String × Val) → SeqOutcome) :
    topological_sort [cycle_a1, cycle_a2] = [] ∧
    execute_tools_sequential cycle_state tool_executor = cycle_state ∧
    (execute_tools_sequential cycle_state tool_executor).error = none ∧
    (execute_tools_sequential cycle_state tool_executor).results = [] :=
  ⟨rfl, rfl, rfl, rfl⟩

/-- C3 (code bug): a `from_result` argument whose value is an executed
action's id is caught by the generic string-replacement branch first (the
`elif` of `_inject_dependencies` is unreachable for string references), so
the payload is stored under the `from_result` key itself — the key is kept
and nothing is merged into the argument set. -/
theorem c3_from_result_shadowed_not_merged :
    inject_dependencies fr_action fr_results =
      { fr_action with args := [("from_result", Val.vdict [("task_id", Val.vstr "t42")])] } ∧
    ((inject_dependencies fr_action fr_results).args.lookup "from_result") =
      some (Val.vdict [("task_id", Val.vstr "t42")]) ∧
    ((inject_dependencies fr_action fr_results).args.lookup "task_id") = none :=
  ⟨rfl, rfl, rfl⟩

-- ─────────────────────────────────────────────────────────────────────────────
-- C1
-- ─────────────────────────────────────────────────────────────────────────────

/-- C1: for a catalog tool whose metadata is write-classified and carries a
delete action, `invoke_tool` never reaches the registry's execute path: it
returns the `pending_confirmation` marker and stashes the call; for every
other known tool it dispatches immediately to the Capability Invoker. -/
theorem c1_invoke_tool_delete_gate (stash : Option PendingCall) (tool_name : String)
    (parameters : List (String × Val)) (meta : ToolMetadata)
    (hmeta : TOOL_INDEX.lookup tool_name = some meta) :
    ((meta.is_write && meta.actions.contains "delete") = true →
      ∃ response : Val,
        invoke_tool stash tool_name parameters =
          (InvokeOutcome.marker response,
           some ⟨tool_name, parameters, "Delete operation: " ++ tool_name⟩) ∧
        pyDictGet response "status" = some (Val.vstr "pending_confirmation")) ∧
    ((meta.is_write && meta.actions.contains "delete") = false →
      invoke_tool stash tool_name parameters =
        (InvokeOutcome.executed tool_name parameters, stash)) := by
  constructor
  · intro hcond
    have heq : invoke_tool stash tool_name parameters =
        (InvokeOutcome.marker (Val.vdict
          [ ("status", Val.vstr "pending_confirmation"),
            ("tool_name", Val.vstr tool_name),
            ("parameters", Val.vdict parameters),
            ("message", Val.vstr "This action requires user confirmation before execution") ]),
         some ⟨tool_name, parameters, "Delete operation: " ++ tool_name⟩) := by
      simp only [invoke_tool, hmeta]
      rw [if_pos hcond]
    exact ⟨_, heq, rfl⟩
  · intro hcond
    simp only [invoke_tool, hmeta]
    rw [if_neg (by rw [hcond]; simp)]

/-- Witness for C1 at the two sides of the gate: `delete_task` is stashed and
answered with the marker, `list_tasks` is dispatched immediately. -/
theorem c1_invoke_tool_delete_gate_witness :
    (∃ response : Val,
      invoke_tool none "delete_task" [] =
        (InvokeOutcome.marker response,
         some ⟨"delete_task", [], "Delete operation: " ++ "delete_task"⟩) ∧
      pyDictGet response "status" = some (Val.vstr "pending_confirmation")) ∧
    invoke_tool none "list_tasks" [] = (InvokeOutcome.executed "list_tasks" [], none) :=
  ⟨(c1_invoke_tool_delete_gate none "delete_task" [] _ rfl).1 rfl,
   (c1_invoke_tool_delete_gate none "list_tasks" [] _ rfl).2 rfl⟩

-- ─────────────────────────────────────────────────────────────────────────────
-- C6
-- ─────────────────────────────────────────────────────────────────────────────

/-- C6 counterexample: after an affirmative reply the destructive action stays
in the plan with its per-action `pending_confirmation` still `true` — the
claim's assertion that the destructive actions keep `pending_confirmation =
false` fails at this concrete suspended state. -/
theorem c6_counterexample_pending_flag_stays_true :
    ¬ ∀ a ∈ (process_confirmation confirm_state).actions, a.pending_confirmation = false := by
  decide

/-- C6 (amended): `process_confirmation` on the trimmed, lowercased reply
follows the gate's transition table — an affirmative token clears the
state-level `requires_confirmation` and `pending_confirmation` and leaves the
actions list unchanged (the destructive actions remain in the plan, their
per-action `pending_confirmation` flags untouched rather than set to false);
a negative token removes exactly the destructive actions and sets the
cancelled message; `edit` and any other reply leave the actions unchanged and
set a re-prompt message. -/
theorem c6_amended_confirmation_table (state : AgentState) :
    (["yes", "y", "confirm", "ok", "proceed"].contains
        (pyStrip (pyLower (state.user_confirmation.getD ""))) = true →
      process_confirmation state =
        { state with requires_confirmation := false, pending_confirmation := none }) ∧
    (["yes", "y", "confirm", "ok", "proceed"].contains
        (pyStrip (pyLower (state.user_confirmation.getD ""))) = false →
     ["no", "n", "cancel", "abort"].contains
        (pyStrip (pyLower (state.user_confirmation.getD ""))) = true →
      process_confirmation state =
        { state with
            actions := state.actions.filter (fun a => !DESTRUCTIVE_TOOLS.contains a.tool),
            requires_confirmation := false,
            pending_confirmation := none,
            confirmation_message := some "Operation cancelled." } ∧
      ∀ a : ActionT, a ∈ (process_confirmation state).actions ↔
        (a ∈ state.actions ∧ DESTRUCTIVE_TOOLS.contains a.tool = false)) ∧
    (["yes", "y", "confirm", "ok", "proceed"].contains
        (pyStrip (pyLower (state.user_confirmation.getD ""))) = false →
     ["no", "n", "cancel", "abort"].contains
        (pyStrip (pyLower (state.user_confirmation.getD ""))) = false →
     pyStrip (pyLower (state.user_confirmation.getD "")) = "edit" →
      process_confirmation state =
        { state with confirmation_message := some "Please specify what you'd like to change." }) ∧
    (["yes", "y", "confirm", "ok", "proceed"].contains
        (pyStrip (pyLower (state.user_confirmation.getD ""))) = false →
     ["no", "n", "cancel", "abort"].contains
        (pyStrip (pyLower (state.user_confirmation.getD ""))) = false →
     pyStrip (pyLower (state.user_confirmation.getD "")) ≠ "edit" →
      process_confirmation state =
        { state with confirmation_message := some "Please reply **yes** to confirm or **no** to cancel." }) := by
  refine ⟨?_, ?_, ?_, ?_⟩
  · intro h1
    simp only [process_confirmation, h1, if_true]
  · intro h1 h2
    constructor
    · simp only [process_confirmation, h1, h2, if_true, Bool.false_eq_true, if_false]
    · intro a
      simp only [process_confirmation, h1, h2, if_true, Bool.false_eq_true, if_false]
      simp [List.mem_filter]
  · intro h1 h2 h3
    simp only [process_confirmation, h1, h2, h3, Bool.false_eq_true, if_false]
    simp
  · intro h1 h2 h3
    have h3' : (pyStrip (pyLower (state.user_confirmation.getD "")) == "edit") = false :=
      beq_eq_false_iff_ne.mpr h3
    simp only [process_confirmation, h1, h2, h3', Bool.false_eq_true, if_false]

/-- Witness for C6 (amended): a negative reply on the suspended state removes
the destructive delete and sets the cancelled message. -/
theorem c6_amended_confirmation_table_witness :
    process_confirmation { confirm_state with user_confirmation := some "no" } =
      { confirm_state with
          user_confirmation := some "no",
          actions := [],
          requires_confirmation := false,
          pending_confirmation := none,
          confirmation_message := some "Operation cancelled." } := by
  have h := (c6_amended_confirmation_table
    { confirm_state with user_confirmation := some "no" }).2.1 (by decide) (by decide)
  exact h.1.trans (by rfl)

-- ─────────────────────────────────────────────────────────────────────────────
-- C8
-- ─────────────────────────────────────────────────────────────────────────────

/-- C8: both synthesizer strategies evaluate the four input cases in fixed
precedence, first match winning: an unresolved pending confirmation echoes
the confirmation message verbatim without consulting any model capability;
otherwise a plan-level error yields the apologetic explanation built from
that error (legacy: a fixed template embedding the error text; DSPy: the
error-recovery module applied to it); otherwise an empty actions list asks
the model for a direct conversational reply; otherwise the per-action summary
(tool, success, message, full result, error) is handed to the model. -/
theorem c8_synthesizer_precedence (state : AgentState) (llm : SynthCall → String)
    (m : DspyModules) :
    ((truthyOptStr state.confirmation_message && truthyPending state.pending_confirmation) = true →
      synthesize_response_legacy state llm =
        { state with final_response := state.confirmation_message } ∧
      synthesize_response_dspy state m =
        { state with final_response := state.confirmation_message }) ∧
    ((truthyOptStr state.confirmation_message && truthyPending state.pending_confirmation) = false →
     truthyOptStr state.error = true →
      synthesize_response_legacy state llm =
        { state with final_response := some ("I encountered an error: " ++
            state.error.getD "" ++ ". Please try again.") } ∧
      synthesize_response_dspy state m =
        { state with final_response := some (m.errorRecovery state.user_message
            (state.error.getD "") "unknown") }) ∧
    ((truthyOptStr state.confirmation_message && truthyPending state.pending_confirmation) = false →
     truthyOptStr state.error = false →
     state.actions.isEmpty = true →
      synthesize_response_legacy state llm =
        { state with final_response := some (llm (SynthCall.conversational state.user_message)) } ∧
      synthesize_response_dspy state m =
        { state with final_response := some (m.conversational state.user_message) }) ∧
    ((truthyOptStr state.confirmation_message && truthyPending state.pending_confirmation) = false →
     truthyOptStr state.error = false →
     state.actions.isEmpty = false →
      synthesize_response_legacy state llm =
        { state with final_response := some (llm (SynthCall.summarize state.user_message
            (build_results_summary state.actions state.results))) } ∧
      synthesize_response_dspy state m =
        { state with final_response := some (m.responseSynthesis state.user_message
            (build_results_summary state.actions state.results)) }) := by
  refine ⟨?_, ?_, ?_, ?_⟩
  · intro h1
    constructor <;> simp only [synthesize_response_legacy, synthesize_response_dspy, h1, if_true]
  · intro h1 h2
    constructor <;>
      simp only [synthesize_response_legacy, synthesize_response_dspy, h1, h2,
        Bool.false_eq_true, if_false, if_true]
  · intro h1 h2 h3
    constructor <;>
      simp only [synthesize_response_legacy, synthesize_response_dspy, h1, h2, h3,
        Bool.false_eq_true, if_false, if_true]
  · intro h1 h2 h3
    constructor <;>
      simp only [synthesize_response_legacy, synthesize_response_dspy, h1, h2, h3,
        Bool.false_eq_true, if_false, if_true]

/-- Witness for C8: the suspended state echoes its confirmation message with
no model call, and the completed one-action state hands the summary to the
model (instantiated with constant model capabilities). -/
theorem c8_synthesizer_precedence_witness :
    synthesize_response_legacy synth_pending_state (fun _ => "LLM") =
      { synth_pending_state with final_response := some "**Confirmation Required**" } ∧
    synthesize_response_legacy synth_done_state (fun _ => "LLM") =
      { synth_done_state with final_response := some "LLM" } := by
  constructor
  · exact ((c8_synthesizer_precedence synth_pending_state (fun _ => "LLM")
      ⟨fun _ _ _ => "E", fun _ => "C", fun _ _ => "S"⟩).1 (by decide)).1.trans (by rfl)
  · exact (((c8_synthesizer_precedence synth_done_state (fun _ => "LLM")
      ⟨fun _ _ _ => "E", fun _ => "C", fun _ _ => "S"⟩).2.2.2 (by decide) (by decide)
        (by decide)).1).trans (by rfl)

-- ─────────────────────────────────────────────────────────────────────────────
-- Kahn's algorithm: supporting lemmas
-- ─────────────────────────────────────────────────────────────────────────────

theorem foldl_append_shift {α β : Type} (g : α → List β) :
    ∀ (l : List α) (init : List β),
      l.foldl (fun acc a => acc ++ g a) init = init ++ l.foldl (fun acc a => acc ++ g a) [] := by
  intro l
  induction l with
  | nil => intro init; simp
  | cons b rest ih =>
    intro init
    simp only [List.foldl_cons, List.nil_append]
    rw [ih (init ++ g b), ih (g b), List.append_assoc]

theorem firstKeys_eq_self (l : List String) (h : l.Nodup) : firstKeys l = l := by
  suffices hgen : ∀ (l : List String) (acc : List String), l.Nodup → (∀ x ∈ l, x ∉ acc) →
      l.foldl (fun acc x => if acc.contains x then acc else acc ++ [x]) acc = acc ++ l by
    unfold firstKeys
    simpa using hgen l [] h (by simp)
  intro l
  induction l with
  | nil => intro acc _ _; simp
  | cons x rest ih =>
    intro acc hnd hdisj
    have hx : acc.contains x = false := by
      cases hc : acc.contains x with
      | false => rfl
      | true =>
        exact absurd (by simpa using hc) (hdisj x (by simp))
    simp only [List.foldl_cons, hx, Bool.false_eq_true, if_false]
    rw [ih (acc ++ [x]) (List.Nodup.of_cons hnd) ?_]
    · simp
    · intro y hy
      simp only [List.mem_append, List.mem_singleton]
      rintro (hya | rfl)
      · exact hdisj y (by simp [hy]) hya
      · exact (List.nodup_cons.mp hnd).1 hy

theorem filter_id_singleton (actions : List ActionT) (hnd : (planIds actions).Nodup) :
    ∀ a ∈ actions, actions.filter (fun x => x.id == a.id) = [a] := by
  induction actions with
  | nil => intro a ha; simp at ha
  | cons b rest ih =>
    intro a ha
    have hpair := List.nodup_cons.mp (show (b.id :: planIds rest).Nodup from hnd)
    have hb : b.id ∉ planIds rest := hpair.1
    have hnd' : (planIds rest).Nodup := hpair.2
    rcases List.mem_cons.mp ha with rfl | ha'
    · have hrest : rest.filter (fun x => x.id == a.id) = [] := by
        apply List.filter_eq_nil_iff.mpr
        intro x hx
        simp only [beq_iff_eq]
        intro hxa
        exact hb (by simpa [planIds, ← hxa] using List.mem_map_of_mem (fun a => a.id) hx)
      simp [List.filter_cons, hrest]
    · have hba : (b.id == a.id) = false := by
        apply beq_eq_false_iff_ne.mpr
        intro he
        exact hb (by simpa [planIds, he] using List.mem_map_of_mem (fun a => a.id) ha')
      simp only [List.filter_cons, hba, Bool.false_eq_true, if_false]
      exact ih hnd' a ha'

theorem action_map_eq (actions : List ActionT) (hnd : (planIds actions).Nodup)
    (a : ActionT) (ha : a ∈ actions) : action_map actions a.id = some a := by
  unfold action_map
  rw [filter_id_singleton actions hnd a ha]
  rfl

theorem action_map_mem (actions : List ActionT) (i : String) (b : ActionT)
    (h : action_map actions i = some b) : b ∈ actions ∧ b.id = i := by
  unfold action_map at h
  have hb : b ∈ actions.filter (fun a => a.id == i) := by
    obtain ⟨hne, heq⟩ := List.mem_getLast?_eq_getLast (Option.mem_def.mpr h)
    rw [heq]
    exact List.getLast_mem hne
  have := List.mem_filter.mp hb
  exact ⟨this.1, by simpa using this.2⟩

theorem theAct_eq (actions : List ActionT) (hnd : (planIds actions).Nodup)
    (a : ActionT) (ha : a ∈ actions) : theAct actions a.id = a := by
  unfold theAct
  rw [action_map_eq actions hnd a ha]
  rfl

theorem theAct_mem (actions : List ActionT) (hnd : (planIds actions).Nodup)
    (i : String) (hi : i ∈ planIds actions) :
    theAct actions i ∈ actions ∧ (theAct actions i).id = i := by
  obtain ⟨a, ha, rfl⟩ := List.mem_map.mp hi
  rw [theAct_eq actions hnd a ha]
  exact ⟨ha, rfl⟩

theorem initial_in_degree_eq (actions : List ActionT) (hnd : (planIds actions).Nodup)
    (a : ActionT) (ha : a ∈ actions) :
    initial_in_degree actions a.id = (a.depends_on.length : Int) := by
  unfold initial_in_degree
  rw [action_map_eq actions hnd a ha]

theorem dependents_of_cons (b : ActionT) (rest : List ActionT) (d : String) :
    dependents_of (b :: rest) d =
      List.replicate (b.depends_on.count d) b.id ++ dependents_of rest d := by
  unfold dependents_of
  simp only [List.foldl_cons]
  rw [foldl_append_shift (fun a => List.replicate (a.depends_on.count d) a.id) rest]
  simp

theorem mem_dependents (actions : List ActionT) (d x : String)
    (h : x ∈ dependents_of actions d) : x ∈ planIds actions := by
  induction actions with
  | nil => simp [dependents_of] at h
  | cons b rest ih =>
    rw [dependents_of_cons] at h
    rcases List.mem_append.mp h with h1 | h2
    · have := List.eq_of_mem_replicate h1
      simp [planIds, this]
    · have := ih h2
      simp only [planIds, List.map_cons, List.mem_cons]
      right
      simpa [planIds] using this

theorem count_dependents (actions : List ActionT) (hnd : (planIds actions).Nodup) :
    ∀ a ∈ actions, ∀ d : String,
      (dependents_of actions d).count a.id = a.depends_on.count d := by
  induction actions with
  | nil => intro a ha; simp at ha
  | cons b rest ih =>
    intro a ha d
    have hpair := List.nodup_cons.mp (show (b.id :: planIds rest).Nodup from hnd)
    have hb : b.id ∉ planIds rest := hpair.1
    have hnd' : (planIds rest).Nodup := hpair.2
    rw [dependents_of_cons, List.count_append]
    rcases List.mem_cons.mp ha with rfl | ha'
    · rw [List.count_replicate]
      simp only [beq_self_eq_true, if_true]
      have hz : (dependents_of rest d).count a.id = 0 := by
        rw [List.count_eq_zero]
        intro hmem
        exact hb (mem_dependents rest d a.id hmem)
      omega
    · have hba : (b.id == a.id) = false := by
        apply beq_eq_false_iff_ne.mpr
        intro he
        exact hb (by simpa [planIds, he] using List.mem_map_of_mem (fun x => x.id) ha')
      rw [List.count_replicate, hba]
      simp only [Bool.false_eq_true, if_false]
      rw [ih hnd' a ha' d]
      omega

theorem kahn_fold_deg (l : List String) :
    ∀ (deg : String → Int) (q : List String) (v : String),
      ((l.foldl kahn_step (deg, q)).1) v = deg v - (l.count v : Int) := by
  induction l with
  | nil => intro deg q v; simp
  | cons x rest ih =>
    intro deg q v
    simp only [List.foldl_cons]
    rw [show (kahn_step (deg, q) x) = ((fun w => if w = x then deg x - 1 else deg w),
        if deg x - 1 = 0 then q ++ [x] else q) from rfl]
    rw [ih]
    by_cases hv : v = x
    · subst hv
      rw [List.count_cons]
      simp only [if_pos rfl, beq_self_eq_true, if_true]
      push_cast
      ring
    · have : (x == v) = false := beq_eq_false_iff_ne.mpr (fun he => hv he.symm)
      rw [List.count_cons, this]
      simp only [if_neg hv, Bool.false_eq_true, if_false]
      push_cast
      ring

theorem kahn_fold_queue (l : List String) :
    ∀ (deg : String → Int) (q : List String),
      ∃ app : List String, (l.foldl kahn_step (deg, q)).2 = q ++ app ∧
        (∀ v, app.count v =
          if 1 ≤ deg v ∧ deg v ≤ (l.count v : Int) then 1 else 0) := by
  induction l with
  | nil =>
    intro deg q
    refine ⟨[], by simp, ?_⟩
    intro v
    simp only [List.count_nil, Nat.cast_zero]
    rw [if_neg (by omega)]
  | cons x rest ih =>
    intro deg q
    simp only [List.foldl_cons]
    rw [show (kahn_step (deg, q) x) = ((fun w => if w = x then deg x - 1 else deg w),
        if deg x - 1 = 0 then q ++ [x] else q) from rfl]
    obtain ⟨app', happ', hcount'⟩ :=
      ih (fun w => if w = x then deg x - 1 else deg w) (if deg x - 1 = 0 then q ++ [x] else q)
    have hcx : app'.count x = if 1 ≤ deg x - 1 ∧ deg x - 1 ≤ (rest.count x : Int) then 1 else 0 := by
      have h0 := hcount' x
      simpa using h0
    have hcv : ∀ v, v ≠ x →
        app'.count v = if 1 ≤ deg v ∧ deg v ≤ (rest.count v : Int) then 1 else 0 := by
      intro v hv
      have h0 := hcount' v
      simpa [if_neg hv] using h0
    by_cases hz : deg x - 1 = 0
    · refine ⟨[x] ++ app', ?_, ?_⟩
      · rw [happ']
        simp [hz]
      · intro v
        by_cases hv : v = x
        · subst hv
          rw [List.count_append, List.count_singleton, List.count_cons, hcx]
          simp only [beq_self_eq_true, if_true]
          push_cast
          split_ifs <;> omega
        · have hxv : (x == v) = false := beq_eq_false_iff_ne.mpr (fun he => hv he.symm)
          rw [List.count_append, hcv v hv]
          have h1 : List.count v [x] = 0 := by
            rw [List.count_eq_zero]
            simp [hv]
          have h2 : List.count v (x :: rest) = List.count v rest := by
            rw [List.count_cons, hxv]
            simp
          rw [h1, h2]
          simp
    · refine ⟨app', by rw [happ']; simp [hz], ?_⟩
      intro v
      by_cases hv : v = x
      · subst hv
        rw [List.count_cons, hcx]
        simp only [beq_self_eq_true, if_true]
        push_cast
        split_ifs <;> omega
      · have hxv : (x == v) = false := beq_eq_false_iff_ne.mpr (fun he => hv he.symm)
        have h2 : List.count v (x :: rest) = List.count v rest := by
          rw [List.count_cons, hxv]
          simp
        rw [hcv v hv, h2]

theorem countP_mem_append_singleton (l : List String) (P : List String) (c : String)
    (hc : c ∉ P) :
    l.countP (fun d => decide (d ∈ P ++ [c])) =
      l.countP (fun d => decide (d ∈ P)) + l.count c := by
  induction l with
  | nil => simp
  | cons d rest ih =>
    rw [List.countP_cons, List.countP_cons, List.count_cons, ih]
    by_cases hdc : d = c
    · subst hdc
      have h1 : (decide (d ∈ P ++ [d])) = true := by simp
      have h2 : (decide (d ∈ P)) = false := by simpa using hc
      simp only [h1, h2, beq_self_eq_true, if_true, Bool.false_eq_true, if_false]
      omega
    · have hdc' : (d == c) = false := beq_eq_false_iff_ne.mpr hdc
      have h3 : (decide (d ∈ P ++ [c])) = (decide (d ∈ P)) := by
        simp [List.mem_append, hdc]
      rw [h3, hdc']
      simp only [Bool.false_eq_true, if_false]
      omega

/-- Shared exit argument of Kahn's loop: when the queue has drained, the rank
function forces every plan id to have been processed. -/
theorem kahn_exit_complete (actions : List ActionT)
    (hnd : (planIds actions).Nodup) (hclosed : depsClosed actions)
    (rank : String → Nat)
    (hrank : ∀ a ∈ actions, ∀ d ∈ a.depends_on, rank d < rank a.id)
    (sorted : List ActionT)
    (hcomp : ∀ i ∈ planIds actions, i ∉ sorted.map (fun a => a.id) → i ∉ ([] : List String) →
      ∃ d ∈ (theAct actions i).depends_on, d ∉ sorted.map (fun a => a.id)) :
    ∀ i ∈ planIds actions, i ∈ sorted.map (fun a => a.id) := by
  by_contra hnot
  push_neg at hnot
  obtain ⟨i, hi_ids, hi_notP⟩ := hnot
  have hSne : i ∈ ((planIds actions).filter
      (fun j => decide (j ∉ sorted.map (fun a => a.id)))).toFinset := by
    have hdec : (decide (i ∉ sorted.map (fun a => a.id))) = true := by simpa using hi_notP
    exact List.mem_toFinset.mpr (List.mem_filter.mpr ⟨hi_ids, hdec⟩)
  obtain ⟨u, huS, humin⟩ := Finset.exists_min_image _ rank ⟨i, hSne⟩
  have huS' := List.mem_filter.mp (List.mem_toFinset.mp huS)
  have hu_ids : u ∈ planIds actions := huS'.1
  have hu_notP : u ∉ sorted.map (fun a => a.id) := by simpa using huS'.2
  obtain ⟨d, hd_dep, hd_notP⟩ := hcomp u hu_ids hu_notP (by simp)
  obtain ⟨huA_mem, huA_id⟩ := theAct_mem actions hnd u hu_ids
  have hd_ids : d ∈ planIds actions := hclosed (theAct actions u) huA_mem d hd_dep
  have hd_S : d ∈ ((planIds actions).filter
      (fun j => decide (j ∉ sorted.map (fun a => a.id)))).toFinset := by
    have hdec : (decide (d ∉ sorted.map (fun a => a.id))) = true := by simpa using hd_notP
    exact List.mem_toFinset.mpr (List.mem_filter.mpr ⟨hd_ids, hdec⟩)
  have h1 : rank u ≤ rank d := humin d hd_S
  have h2 : rank d < rank u := by
    have h := hrank (theAct actions u) huA_mem d hd_dep
    rwa [huA_id] at h
  omega

/-- When the processed prefix is already as long as the id list, everything
has been processed and the queue must be empty. -/
theorem kahn_full_of_length (actions : List ActionT) (hnd : (planIds actions).Nodup)
    (sorted : List ActionT) (queue : List String)
    (hnodup : (sorted.map (fun a => a.id) ++ queue).Nodup)
    (hmem : ∀ i ∈ sorted.map (fun a => a.id) ++ queue, i ∈ planIds actions)
    (hlen : (planIds actions).length ≤ sorted.length) :
    (∀ i ∈ planIds actions, i ∈ sorted.map (fun a => a.id)) ∧ queue = [] := by
  have hPnd : (sorted.map (fun a => a.id)).Nodup := (List.nodup_append.mp hnodup).1
  have hdisj : (sorted.map (fun a => a.id)).Disjoint queue :=
    (List.nodup_append.mp hnodup).2.2
  have hPsub : sorted.map (fun a => a.id) ⊆ planIds actions :=
    fun x hx => hmem x (List.mem_append_left _ hx)
  have hsubF : (sorted.map (fun a => a.id)).toFinset ⊆ (planIds actions).toFinset := by
    intro x hx
    exact List.mem_toFinset.mpr (hPsub (List.mem_toFinset.mp hx))
  have hcard : (planIds actions).toFinset.card ≤ (sorted.map (fun a => a.id)).toFinset.card := by
    rw [List.toFinset_card_of_nodup hnd, List.toFinset_card_of_nodup hPnd]
    calc (planIds actions).length ≤ sorted.length := hlen
    _ = (sorted.map (fun a => a.id)).length := by simp
  have heqF := Finset.eq_of_subset_of_card_le hsubF hcard
  have hful : ∀ i ∈ planIds actions, i ∈ sorted.map (fun a => a.id) := by
    intro i hi
    have : i ∈ (sorted.map (fun a => a.id)).toFinset := by
      rw [heqF]
      exact List.mem_toFinset.mpr hi
    exact List.mem_toFinset.mp this
  refine ⟨hful, ?_⟩
  cases hq : queue with
  | nil => rfl
  | cons q0 qs =>
    exfalso
    have hq0q : q0 ∈ queue := by rw [hq]; simp
    have hq0 : q0 ∈ planIds actions := hmem q0 (List.mem_append_right _ hq0q)
    exact hdisj (hful q0 hq0) hq0q

/-- Appending a node whose dependencies are all already in the list keeps the
"every node comes after its dependencies" property. -/
theorem kahn_ord_extend (sorted : List ActionT) (A : ActionT)
    (hord : ∀ (k : Nat) (hk : k < sorted.length),
      ∀ d ∈ (sorted.get ⟨k, hk⟩).depends_on, d ∈ (sorted.take k).map (fun a => a.id))
    (hA : ∀ d ∈ A.depends_on, d ∈ sorted.map (fun a => a.id)) :
    ∀ (k : Nat) (hk : k < (sorted ++ [A]).length),
      ∀ d ∈ ((sorted ++ [A]).get ⟨k, hk⟩).depends_on,
        d ∈ ((sorted ++ [A]).take k).map (fun a => a.id) := by
  intro k hk d hd
  by_cases h : k < sorted.length
  · rw [List.get_append k h] at hd
    rw [List.take_append_of_le_length (by omega)]
    exact hord k h d hd
  · have hkeq : k = sorted.length := by
      have := hk
      simp only [List.length_append, List.length_singleton] at this
      omega
    have hgetA : (sorted ++ [A]).get ⟨k, hk⟩ = A := by
      have := List.getElem_concat_length sorted A k hkeq hk
      simpa [List.get_eq_getElem] using this
    rw [hgetA] at hd
    rw [hkeq, List.take_left]
    exact hA d hd

/-- Master invariant lemma for the `while queue:` loop of `_topological_sort`:
under the plan invariants (unique ids, in-plan dependencies, acyclicity) the
loop extends the processed list by exactly the queued and to-be-discovered
ids, keeps it duplicate-free and dependency-ordered, and processes every id
of the plan. -/
theorem kahn_master (actions : List ActionT)
    (hnd : (planIds actions).Nodup) (hclosed : depsClosed actions)
    (rank : String → Nat)
    (hrank : ∀ a ∈ actions, ∀ d ∈ a.depends_on, rank d < rank a.id) :
    ∀ (fuel : Nat) (queue : List String) (deg : String → Int) (sorted : List ActionT),
      (planIds actions).length ≤ fuel + sorted.length →
      (sorted.map (fun a => a.id) ++ queue).Nodup →
      (∀ i ∈ sorted.map (fun a => a.id) ++ queue, i ∈ planIds actions) →
      (∀ i ∈ planIds actions,
        deg i = ((theAct actions i).depends_on.length : Int) -
          (((theAct actions i).depends_on.countP
            (fun d => decide (d ∈ sorted.map (fun a => a.id)))) : Int)) →
      (∀ i ∈ queue, ∀ d ∈ (theAct actions i).depends_on, d ∈ sorted.map (fun a => a.id)) →
      (∀ a ∈ sorted, a ∈ actions) →
      (∀ a ∈ sorted, ∀ d ∈ a.depends_on, d ∈ sorted.map (fun a => a.id)) →
      (∀ i ∈ planIds actions, i ∉ sorted.map (fun a => a.id) → i ∉ queue →
        ∃ d ∈ (theAct actions i).depends_on, d ∉ sorted.map (fun a => a.id)) →
      (∀ (k : Nat) (hk : k < sorted.length),
        ∀ d ∈ (sorted.get ⟨k, hk⟩).depends_on, d ∈ (sorted.take k).map (fun a => a.id)) →
      ∃ out : List ActionT,
        kahnLoop (action_map actions) (dependents_of actions) fuel queue deg sorted = out ∧
        (∃ tail, out.map (fun a => a.id) = sorted.map (fun a => a.id) ++ queue ++ tail) ∧
        (out.map (fun a => a.id)).Nodup ∧
        (∀ a ∈ out, a ∈ actions) ∧
        (∀ i ∈ planIds actions, i ∈ out.map (fun a => a.id)) ∧
        (∀ (k : Nat) (hk : k < out.length),
          ∀ d ∈ (out.get ⟨k, hk⟩).depends_on, d ∈ (out.take k).map (fun a => a.id)) := by
  intro fuel
  induction fuel with
  | zero =>
    intro queue deg sorted hlen hnodup hmem hdeg hqready hsmem hsready hcomp hord
    obtain ⟨hful, hqnil⟩ := kahn_full_of_length actions hnd sorted queue hnodup hmem (by omega)
    subst hqnil
    exact ⟨sorted, rfl, ⟨[], by simp⟩, (List.nodup_append.mp hnodup).1, hsmem, hful, hord⟩
  | succ fuel ih =>
    intro queue deg sorted hlen hnodup hmem hdeg hqready hsmem hsready hcomp hord
    cases queue with
    | nil =>
      have hful := kahn_exit_complete actions hnd hclosed rank hrank sorted
        (by simpa using hcomp)
      exact ⟨sorted, rfl, ⟨[], by simp⟩, (List.nodup_append.mp hnodup).1, hsmem, hful, hord⟩
    | cons c rest =>
      have hc_ids : c ∈ planIds actions := hmem c (by simp)
      obtain ⟨hcA_mem, hcA_id⟩ := theAct_mem actions hnd c hc_ids
      have hamap : action_map actions c = some (theAct actions c) := by
        obtain ⟨a, ha, haid⟩ := List.mem_map.mp hc_ids
        rw [← haid, theAct_eq actions hnd a ha]
        exact action_map_eq actions hnd a ha
      have hstep : kahnLoop (action_map actions) (dependents_of actions) (fuel + 1)
            (c :: rest) deg sorted =
          kahnLoop (action_map actions) (dependents_of actions) fuel
            (((dependents_of actions c).foldl kahn_step (deg, rest)).2)
            (((dependents_of actions c).foldl kahn_step (deg, rest)).1)
            (sorted ++ [theAct actions c]) := by
        conv_lhs => rw [kahnLoop]
        rw [hamap]
        rfl
      -- characterize the inner fold
      have hdeg2 := kahn_fold_deg (dependents_of actions c) deg rest
      obtain ⟨app, happ, happcount⟩ := kahn_fold_queue (dependents_of actions c) deg rest
      have hlcount : ∀ i ∈ planIds actions,
          (dependents_of actions c).count i = ((theAct actions i).depends_on).count c := by
        intro i hi
        obtain ⟨hA_mem, hA_id⟩ := theAct_mem actions hnd i hi
        have h := count_dependents actions hnd (theAct actions i) hA_mem c
        rwa [hA_id] at h
      have happ_mem : ∀ v, v ∈ app ↔
          (1 ≤ deg v ∧ deg v ≤ ((dependents_of actions c).count v : Int)) := by
        intro v
        rw [← List.count_pos_iff (a := v) (l := app), happcount v]
        split_ifs with hcnd
        · simp [hcnd]
        · simp [hcnd]
      have happ_ids : ∀ v ∈ app, v ∈ planIds actions := by
        intro v hv
        have hcnd := (happ_mem v).mp hv
        have hpos : 0 < (dependents_of actions c).count v := by
          by_contra hno
          push_neg at hno
          have h0 : (dependents_of actions c).count v = 0 := by omega
          rw [h0] at hcnd
          push_cast at hcnd
          omega
        exact mem_dependents actions c v (List.count_pos_iff.mp hpos)
      -- nodup bookkeeping
      have hPQnd : ((sorted.map (fun a => a.id) ++ [c]) ++ rest).Nodup := by
        have : sorted.map (fun a => a.id) ++ c :: rest =
            (sorted.map (fun a => a.id) ++ [c]) ++ rest := by simp
        rwa [this] at hnodup
      have hcP : c ∉ sorted.map (fun a => a.id) := by
        have h := List.nodup_append.mp hnodup
        have := h.2.2
        intro hcmem
        exact this hcmem (by simp)
      -- degrees of already-settled ids are zero
      have hdeg_settled : ∀ i ∈ planIds actions,
          (∀ d ∈ (theAct actions i).depends_on, d ∈ sorted.map (fun a => a.id)) → deg i = 0 := by
        intro i hi hall
        have hlenP : ((theAct actions i).depends_on.countP
            (fun d => decide (d ∈ sorted.map (fun a => a.id)))) =
            (theAct actions i).depends_on.length := by
          apply List.countP_eq_length.mpr
          intro d hd
          simpa using hall d hd
        rw [hdeg i hi, hlenP]
        omega
      have hdeg_P : ∀ a ∈ sorted, deg a.id = 0 := by
        intro a ha
        have haid : a.id ∈ planIds actions := by
          exact hmem a.id (List.mem_append_left _ (List.mem_map_of_mem _ ha))
        apply hdeg_settled a.id haid
        have := theAct_eq actions hnd a (hsmem a ha)
        rw [this]
        exact hsready a ha
      have hdeg_q : ∀ i ∈ c :: rest, deg i = 0 := by
        intro i hi
        exact hdeg_settled i (hmem i (List.mem_append_right _ hi)) (hqready i hi)
      have happ_fresh : ∀ v ∈ app,
          v ∉ sorted.map (fun a => a.id) ∧ v ≠ c ∧ v ∉ rest := by
        intro v hv
        have hcnd := (happ_mem v).mp hv
        refine ⟨?_, ?_, ?_⟩
        · intro hvP
          obtain ⟨a, ha, haid⟩ := List.mem_map.mp hvP
          rw [← haid] at hcnd
          rw [hdeg_P a ha] at hcnd
          omega
        · intro hvc
          rw [hvc, hdeg_q c (by simp)] at hcnd
          omega
        · intro hvr
          rw [hdeg_q v (by simp [hvr])] at hcnd
          omega
      have happ_nd : app.Nodup := by
        rw [List.nodup_iff_count_le_one]
        intro v
        rw [happcount v]
        split_ifs <;> omega
      -- invariants for the next iteration
      have hP'eq : (sorted ++ [theAct actions c]).map (fun a => a.id) =
          sorted.map (fun a => a.id) ++ [c] := by simp [hcA_id]
      have hnodup' : ((sorted ++ [theAct actions c]).map (fun a => a.id) ++ (rest ++ app)).Nodup := by
        rw [hP'eq]
        have hshape : sorted.map (fun a => a.id) ++ [c] ++ (rest ++ app) =
            (sorted.map (fun a => a.id) ++ (c :: rest)) ++ app := by simp
        rw [hshape]
        apply List.Nodup.append hnodup happ_nd
        intro v hvL hvapp
        obtain ⟨hnP, hnc, hnr⟩ := happ_fresh v hvapp
        rcases List.mem_append.mp hvL with h | h
        · exact hnP h
        · rcases List.mem_cons.mp h with h | h
          · exact hnc h
          · exact hnr h
      have hmem' : ∀ i ∈ (sorted ++ [theAct actions c]).map (fun a => a.id) ++ (rest ++ app),
          i ∈ planIds actions := by
        rw [hP'eq]
        intro i hi
        rcases List.mem_append.mp hi with h | h
        · rcases List.mem_append.mp h with h1 | h1
          · exact hmem i (List.mem_append_left _ h1)
          · rw [List.mem_singleton] at h1
            subst h1
            exact hc_ids
        · rcases List.mem_append.mp h with h1 | h1
          · exact hmem i (List.mem_append_right _ (by simp [h1]))
          · exact happ_ids i h1
      have hdeg' : ∀ i ∈ planIds actions,
          (((dependents_of actions c).foldl kahn_step (deg, rest)).1) i =
            ((theAct actions i).depends_on.length : Int) -
              (((theAct actions i).depends_on.countP
                (fun d => decide (d ∈ (sorted ++ [theAct actions c]).map (fun a => a.id)))) : Int) := by
        intro i hi
        rw [hP'eq, kahn_fold_deg, hdeg i hi, hlcount i hi,
          countP_mem_append_singleton (theAct actions i).depends_on
            (sorted.map (fun a => a.id)) c hcP]
        push_cast
        ring
      have hqready' : ∀ i ∈ rest ++ app, ∀ d ∈ (theAct actions i).depends_on,
          d ∈ (sorted ++ [theAct actions c]).map (fun a => a.id) := by
        rw [hP'eq]
        intro i hi d hd
        rcases List.mem_append.mp hi with h | h
        · exact List.mem_append_left _ (hqready i (by simp [h]) d hd)
        · have hcnd := (happ_mem i).mp h
          have hiids := happ_ids i h
          have hsplit := countP_mem_append_singleton (theAct actions i).depends_on
              (sorted.map (fun a => a.id)) c hcP
          have hub := List.countP_le_length
            (fun d => decide (d ∈ sorted.map (fun a => a.id) ++ [c]))
            (l := (theAct actions i).depends_on)
          have hle : ((theAct actions i).depends_on.countP
              (fun d => decide (d ∈ sorted.map (fun a => a.id) ++ [c]))) =
              (theAct actions i).depends_on.length := by
            rw [hlcount i hiids] at hcnd
            rw [hdeg i hiids] at hcnd
            have hub2 := List.countP_le_length
              (fun d => decide (d ∈ sorted.map (fun a => a.id)))
              (l := (theAct actions i).depends_on)
            omega
          have hall := List.countP_eq_length.mp hle d hd
          simpa using hall
      have hsmem' : ∀ a ∈ sorted ++ [theAct actions c], a ∈ actions := by
        intro a ha
        rcases List.mem_append.mp ha with h | h
        · exact hsmem a h
        · rw [List.mem_singleton] at h
          subst h
          exact hcA_mem
      have hsready' : ∀ a ∈ sorted ++ [theAct actions c], ∀ d ∈ a.depends_on,
          d ∈ (sorted ++ [theAct actions c]).map (fun a => a.id) := by
        rw [hP'eq]
        intro a ha d hd
        rcases List.mem_append.mp ha with h | h
        · exact List.mem_append_left _ (hsready a h d hd)
        · rw [List.mem_singleton] at h
          subst h
          exact List.mem_append_left _ (hqready c (by simp) d hd)
      have hcomp' : ∀ i ∈ planIds actions,
          i ∉ (sorted ++ [theAct actions c]).map (fun a => a.id) → i ∉ rest ++ app →
          ∃ d ∈ (theAct actions i).depends_on,
            d ∉ (sorted ++ [theAct actions c]).map (fun a => a.id) := by
        rw [hP'eq]
        intro i hi hiP' hiq'
        have hiP : i ∉ sorted.map (fun a => a.id) := fun h => hiP' (List.mem_append_left _ h)
        have hic : i ≠ c := fun h => hiP' (by simp [h])
        have hirest : i ∉ rest := fun h => hiq' (List.mem_append_left _ h)
        have hiapp : i ∉ app := fun h => hiq' (List.mem_append_right _ h)
        by_contra hno
        push_neg at hno
        have hlenP : ((theAct actions i).depends_on.countP
            (fun d => decide (d ∈ sorted.map (fun a => a.id) ++ [c]))) =
            (theAct actions i).depends_on.length :=
          List.countP_eq_length.mpr (fun d hd => by simpa using hno d hd)
        obtain ⟨d0, hd0, hd0n⟩ := hcomp i hi hiP (by simp [hic, hirest])
        have hub := List.countP_le_length
          (fun d => decide (d ∈ sorted.map (fun a => a.id)))
          (l := (theAct actions i).depends_on)
        have hne : ((theAct actions i).depends_on.countP
            (fun d => decide (d ∈ sorted.map (fun a => a.id)))) ≠
            (theAct actions i).depends_on.length := by
          intro he
          have hall := List.countP_eq_length.mp he d0 hd0
          exact hd0n (by simpa using hall)
        have hsplit := countP_mem_append_singleton (theAct actions i).depends_on
            (sorted.map (fun a => a.id)) c hcP
        refine hiapp ((happ_mem i).mpr ?_)
        rw [hlcount i hi, hdeg i hi]
        constructor <;> omega
      have hord' := kahn_ord_extend sorted (theAct actions c) hord (hqready c (by simp))
      have hlen' : (planIds actions).length ≤ fuel + (sorted ++ [theAct actions c]).length := by
        rw [List.length_append, List.length_singleton]
        omega
      rw [happ] at hstep
      obtain ⟨out, houteq, ⟨tail, htail⟩, hnd_out, hactmem_out, hful_out, hord_out⟩ :=
        ih (rest ++ app) (((dependents_of actions c).foldl kahn_step (deg, rest)).1)
          (sorted ++ [theAct actions c]) hlen' hnodup' hmem' hdeg' hqready' hsmem'
          hsready' hcomp' hord'
      refine ⟨out, ?_, ⟨app ++ tail, ?_⟩, hnd_out, hactmem_out, hful_out, hord_out⟩
      · rw [hstep]
        exact houteq
      · rw [htail, hP'eq]
        simp

/-- Full specification of `_topological_sort` on well-formed acyclic plans:
permutation, dependencies-first ordering, and the independent actions as a
plan-ordered prefix. -/
theorem topological_sort_spec (actions : List ActionT)
    (hnd : (planIds actions).Nodup) (hclosed : depsClosed actions)
    (hacyclic : acyclicRank actions) :
    (topological_sort actions).Perm actions ∧
    (∀ a ∈ actions, ∀ d ∈ a.depends_on,
      ((topological_sort actions).map (fun x => x.id)).indexOf d <
        ((topological_sort actions).map (fun x => x.id)).indexOf a.id) ∧
    (∃ tail, (topological_sort actions).map (fun x => x.id) =
      ((actions.filter (fun a => a.depends_on.isEmpty)).map (fun a => a.id)) ++ tail) := by
  obtain ⟨rank, hrank⟩ := hacyclic
  have hfk : firstKeys (actions.map (fun a => a.id)) = planIds actions :=
    firstKeys_eq_self (planIds actions) hnd
  set queue0 := (firstKeys (actions.map (fun a => a.id))).filter
    (fun i => initial_in_degree actions i == 0) with hq0def
  have hq0 : queue0 = (planIds actions).filter (fun i => initial_in_degree actions i == 0) := by
    rw [hq0def, hfk]
  have hq0nd : queue0.Nodup := by
    rw [hq0]
    exact List.Nodup.filter _ hnd
  have hq0sub : ∀ i ∈ queue0, i ∈ planIds actions := by
    intro i hi
    rw [hq0] at hi
    exact (List.mem_filter.mp hi).1
  have hq0chr : queue0 = (actions.filter (fun a => a.depends_on.isEmpty)).map
      (fun a => a.id) := by
    rw [hq0]
    show (actions.map (fun a => a.id)).filter _ = _
    rw [List.filter_map]
    congr 1
    apply List.filter_congr
    intro a ha
    show (initial_in_degree actions a.id == 0) = a.depends_on.isEmpty
    rw [initial_in_degree_eq actions hnd a ha]
    cases hdeps : a.depends_on with
    | nil => simp
    | cons x xs =>
      rw [show (x :: xs).isEmpty = false from rfl]
      apply beq_eq_false_iff_ne.mpr
      intro hc
      simp at hc
      omega
  have htopo : topological_sort actions = kahnLoop (action_map actions)
      (dependents_of actions) actions.length queue0 (initial_in_degree actions) [] := rfl
  obtain ⟨out, houteq, ⟨tail, htail⟩, hnd_out, hactmem_out, hful_out, hord_out⟩ :=
    kahn_master actions hnd hclosed rank hrank actions.length queue0
      (initial_in_degree actions) []
      (by simp [planIds])
      (by simpa using hq0nd)
      (by
        intro i hi
        simp only [List.map_nil, List.nil_append] at hi
        exact hq0sub i hi)
      (by
        intro i hi
        obtain ⟨hAmem, hAid⟩ := theAct_mem actions hnd i hi
        have h1 : initial_in_degree actions i = ((theAct actions i).depends_on.length : Int) := by
          conv_lhs => rw [← hAid]
          exact initial_in_degree_eq actions hnd (theAct actions i) hAmem
        have h2 : ((theAct actions i).depends_on.countP
            (fun d => decide (d ∈ (([] : List ActionT).map (fun a => a.id))))) = 0 := by
          apply List.countP_eq_zero.mpr
          intro d _
          simp
        rw [h1, h2]
        simp)
      (by
        intro i hi d hd
        exfalso
        rw [hq0] at hi
        have hcond := (List.mem_filter.mp hi).2
        have hiids := (List.mem_filter.mp hi).1
        obtain ⟨hAmem, hAid⟩ := theAct_mem actions hnd i hiids
        have h1 : initial_in_degree actions i = ((theAct actions i).depends_on.length : Int) := by
          conv_lhs => rw [← hAid]
          exact initial_in_degree_eq actions hnd (theAct actions i) hAmem
        have hz : initial_in_degree actions i = 0 := by simpa using hcond
        rw [h1] at hz
        have : (theAct actions i).depends_on = [] := by
          apply List.eq_nil_of_length_eq_zero
          exact_mod_cast hz
        rw [this] at hd
        simp at hd)
      (by intro a ha; simp at ha)
      (by intro a ha; simp at ha)
      (by
        intro i hi _ hiq
        obtain ⟨hAmem, hAid⟩ := theAct_mem actions hnd i hi
        have hcond : (initial_in_degree actions i == 0) = false := by
          by_contra hcc
          apply hiq
          rw [hq0]
          apply List.mem_filter.mpr
          refine ⟨hi, ?_⟩
          cases hb : (initial_in_degree actions i == 0) with
          | true => rfl
          | false => exact absurd hb hcc
        have h1 : initial_in_degree actions i = ((theAct actions i).depends_on.length : Int) := by
          conv_lhs => rw [← hAid]
          exact initial_in_degree_eq actions hnd (theAct actions i) hAmem
        have hne : (theAct actions i).depends_on ≠ [] := by
          intro hnil
          rw [hnil] at h1
          simp at h1
          rw [h1] at hcond
          simp at hcond
        obtain ⟨d, hd⟩ := List.exists_mem_of_ne_nil _ hne
        exact ⟨d, hd, by simp⟩)
      (by
        intro k hk
        simp at hk)
  have houtfull : topological_sort actions = out := htopo.trans houteq
  have hLsub : ∀ x ∈ out.map (fun a => a.id), x ∈ planIds actions := by
    intro x hx
    obtain ⟨a, ha, rfl⟩ := List.mem_map.mp hx
    exact List.mem_map_of_mem _ (hactmem_out a ha)
  have hpermids : (out.map (fun a => a.id)).Perm (planIds actions) :=
    (List.perm_ext_iff_of_nodup hnd_out hnd).mpr
      (fun x => ⟨fun hx => hLsub x hx, fun hx => hful_out x hx⟩)
  have e1 : (out.map (fun a => a.id)).map (theAct actions) = out := by
    rw [List.map_map]
    have hcongr : out.map (theAct actions ∘ fun a => a.id) = out.map (fun a => a) :=
      List.map_congr_left (fun a ha => theAct_eq actions hnd a (hactmem_out a ha))
    rw [hcongr]
    simp
  have e2 : (planIds actions).map (theAct actions) = actions := by
    show (actions.map (fun a => a.id)).map (theAct actions) = actions
    rw [List.map_map]
    have hcongr : actions.map (theAct actions ∘ fun a => a.id) = actions.map (fun a => a) :=
      List.map_congr_left (fun a ha => theAct_eq actions hnd a ha)
    rw [hcongr]
    simp
  have hperm : out.Perm actions := by
    have h := hpermids.map (theAct actions)
    rwa [e1, e2] at h
  refine ⟨houtfull ▸ hperm, ?_, ?_⟩
  · intro a ha d hd
    rw [houtfull]
    have haid : a.id ∈ out.map (fun x => x.id) :=
      hful_out a.id (List.mem_map_of_mem _ ha)
    have hkL : (out.map (fun x => x.id)).indexOf a.id < (out.map (fun x => x.id)).length :=
      List.indexOf_lt_length.mpr haid
    have hkout : (out.map (fun x => x.id)).indexOf a.id < out.length := by
      simpa using hkL
    have hgetL : (out.map (fun x => x.id)).get ⟨_, hkL⟩ = a.id := List.indexOf_get hkL
    have hgetid : (out.get ⟨(out.map (fun x => x.id)).indexOf a.id, hkout⟩).id = a.id := by
      have hm := List.get_map (fun x => x.id) (l := out)
        (n := ⟨(out.map (fun x => x.id)).indexOf a.id, hkL⟩)
      rw [hgetL] at hm
      exact hm.symm
    have hgeta : out.get ⟨(out.map (fun x => x.id)).indexOf a.id, hkout⟩ = a := by
      have hmem_g := hactmem_out _ (List.get_mem out _ hkout)
      have h1 := theAct_eq actions hnd _ hmem_g
      have h2 := theAct_eq actions hnd a ha
      rw [← h1, hgetid, h2]
    have hdtake := hord_out ((out.map (fun x => x.id)).indexOf a.id) hkout d
      (by rw [hgeta]; exact hd)
    rw [List.map_take] at hdtake
    obtain ⟨j, hj, hjd⟩ := List.mem_take_iff_getElem.mp hdtake
    have hjlen : j < (out.map (fun x => x.id)).length :=
      lt_of_lt_of_le hj (min_le_right _ _)
    have hidx : (out.map (fun x => x.id)).indexOf d = j := by
      have hg : (out.map (fun x => x.id)).get ⟨j, hjlen⟩ = d := by simpa using hjd
      rw [← hg]
      exact List.get_indexOf hnd_out ⟨j, hjlen⟩
    have hjk : j < (out.map (fun x => x.id)).indexOf a.id :=
      lt_of_lt_of_le hj (min_le_left _ _)
    omega
  · rw [houtfull]
    refine ⟨tail, ?_⟩
    rw [htail, ← hq0chr]
    simp

/-- C7: for every plan whose `depends_on` graph is acyclic (with unique ids
and in-plan references, the spec's §3 plan invariants), the sequential
executor's topological sort produces an order in which every action appears
after all actions named in its `depends_on`, and the actions that are
simultaneously ready at queue initialisation — those with no dependencies —
appear first, in original plan order (stable FIFO queue, deterministic). -/
theorem c7_topological_sort_correct (actions : List ActionT)
    (hnd : (planIds actions).Nodup) (hclosed : depsClosed actions)
    (hacyclic : acyclicRank actions) :
    (topological_sort actions).Perm actions ∧
    (∀ a ∈ actions, ∀ d ∈ a.depends_on,
      ((topological_sort actions).map (fun x => x.id)).indexOf d <
        ((topological_sort actions).map (fun x => x.id)).indexOf a.id) ∧
    (∃ tail, (topological_sort actions).map (fun x => x.id) =
      ((actions.filter (fun a => a.depends_on.isEmpty)).map (fun a => a.id)) ++ tail) :=
  topological_sort_spec actions hnd hclosed hacyclic

/-- Witness for C7 at the two-action chain of §8 scenario 5: the order is a
permutation placing the dependent action after its dependency, with the
independent action first. -/
theorem c7_topological_sort_correct_witness :
    (topological_sort [chain_a1, chain_a2]).Perm [chain_a1, chain_a2] ∧
    (∀ a ∈ [chain_a1, chain_a2], ∀ d ∈ a.depends_on,
      ((topological_sort [chain_a1, chain_a2]).map (fun x => x.id)).indexOf d <
        ((topological_sort [chain_a1, chain_a2]).map (fun x => x.id)).indexOf a.id) ∧
    (∃ tail, (topological_sort [chain_a1, chain_a2]).map (fun x => x.id) =
      (([chain_a1, chain_a2].filter (fun a => a.depends_on.isEmpty)).map (fun a => a.id)) ++ tail) :=
  c7_topological_sort_correct [chain_a1, chain_a2] (by decide)
    (by unfold depsClosed; decide)
    (by unfold acyclicRank; exact ⟨chain_rank, by decide⟩)

-- ─────────────────────────────────────────────────────────────────────────────
-- Executor fold lemmas
-- ─────────────────────────────────────────────────────────────────────────────

theorem foldl_dictSet_preserve (g : ActionT → Val) :
    ∀ (l : List ActionT) (res0 : List (String × Val)) (k : String),
      k ∉ l.map (fun a => a.id) →
      ((l.foldl (fun res x => dictSet res x.id (g x)) res0).lookup k) = res0.lookup k := by
  intro l
  induction l with
  | nil => intro res0 k _; rfl
  | cons b rest ih =>
    intro res0 k hk
    simp only [List.foldl_cons]
    rw [ih (dictSet res0 b.id (g b)) k (fun h => hk (by simp [h]))]
    exact lookup_dictSet_ne res0 b.id k (g b) (fun h => hk (by simp [h]))

theorem foldl_dictSet_lookup (g : ActionT → Val) :
    ∀ (l : List ActionT) (res0 : List (String × Val)),
      (l.map (fun a => a.id)).Nodup →
      ∀ a ∈ l, ((l.foldl (fun res x => dictSet res x.id (g x)) res0).lookup a.id) = some (g a) := by
  intro l
  induction l with
  | nil => intro res0 _ a ha; simp at ha
  | cons b rest ih =>
    intro res0 hnd a ha
    have hpair := List.nodup_cons.mp (show (b.id :: rest.map (fun a => a.id)).Nodup from hnd)
    simp only [List.foldl_cons]
    rcases List.mem_cons.mp ha with rfl | ha'
    · rw [foldl_dictSet_preserve g rest (dictSet res0 a.id (g a)) a.id hpair.1]
      exact lookup_dictSet_self res0 a.id (g a)
    · exact ih (dictSet res0 b.id (g b)) hpair.2 a ha'

theorem foldl_dictSet_dep_isSome_mono (g : List (String × Val) → ActionT → Val) :
    ∀ (l : List ActionT) (res0 : List (String × Val)) (k : String),
      ((res0.lookup k).isSome = true) →
      (((l.foldl (fun res x => dictSet res x.id (g res x)) res0).lookup k).isSome = true) := by
  intro l
  induction l with
  | nil => intro res0 k h; exact h
  | cons b rest ih =>
    intro res0 k h
    simp only [List.foldl_cons]
    exact ih _ k (lookup_dictSet_isSome_mono res0 b.id k (g res0 b) h)

theorem foldl_dictSet_dep_isSome (g : List (String × Val) → ActionT → Val) :
    ∀ (l : List ActionT) (res0 : List (String × Val)),
      ∀ a ∈ l, (((l.foldl (fun res x => dictSet res x.id (g res x)) res0).lookup a.id).isSome = true) := by
  intro l
  induction l with
  | nil => intro res0 a ha; simp at ha
  | cons b rest ih =>
    intro res0 a ha
    simp only [List.foldl_cons]
    rcases List.mem_cons.mp ha with rfl | ha'
    · exact foldl_dictSet_dep_isSome_mono g rest _ a.id
        (by rw [lookup_dictSet_self]; rfl)
    · exact ih _ a ha'

theorem foldl_dictSet_dep_preserve (g : List (String × Val) → ActionT → Val) :
    ∀ (l : List ActionT) (res0 : List (String × Val)) (k : String),
      k ∉ l.map (fun a => a.id) →
      ((l.foldl (fun res x => dictSet res x.id (g res x)) res0).lookup k) = res0.lookup k := by
  intro l
  induction l with
  | nil => intro res0 k _; rfl
  | cons b rest ih =>
    intro res0 k hk
    simp only [List.foldl_cons]
    rw [ih _ k (fun h => hk (by simp [h]))]
    exact lookup_dictSet_ne res0 b.id k (g res0 b) (fun h => hk (by simp [h]))

theorem foldl_dictSet_dep_const (g : List (String × Val) → ActionT → Val) :
    ∀ (l : List ActionT) (res0 : List (String × Val)),
      (l.map (fun a => a.id)).Nodup →
      ∀ a ∈ l, ∀ v : Val, (∀ res, g res a = v) →
      ((l.foldl (fun res x => dictSet res x.id (g res x)) res0).lookup a.id) = some v := by
  intro l
  induction l with
  | nil => intro res0 _ a ha; simp at ha
  | cons b rest ih =>
    intro res0 hnd a ha v hval
    have hpair := List.nodup_cons.mp (show (b.id :: rest.map (fun a => a.id)).Nodup from hnd)
    simp only [List.foldl_cons]
    rcases List.mem_cons.mp ha with rfl | ha'
    · rw [foldl_dictSet_dep_preserve g rest _ a.id hpair.1, hval res0]
      exact lookup_dictSet_self res0 a.id v
    · exact ih _ hpair.2 a ha' v hval

-- ─────────────────────────────────────────────────────────────────────────────
-- C4
-- ─────────────────────────────────────────────────────────────────────────────

/-- C4 counterexample: in a plan containing a dependency cycle plus one
independent action whose invocation raises, the sequential executor returns a
silently partial result set — the failing action gets its failed Result, but
the two cyclic actions are never attempted and get no Result entry at all. -/
theorem c4_counterexample_cycle_partial_results :
    ¬ (∀ a ∈ fault_state.actions,
        (((execute_tools_sequential fault_state fault_executor).results.lookup a.id)).isSome
          = true) := by
  decide

/-- C4 (amended): in the parallel path, for every plan with unique ids, every
submitted action gets exactly the Result of its own outcome — a failure
(exception or timeout) yields a `success = false` Result for that action only
and every other action's entry is untouched by it; in the sequential path the
same holds for every plan whose `depends_on` graph is acyclic with in-plan
references (a cyclic plan silently drops the cyclic actions, see C2): every
action gets an attempt and a recorded Result, and an action whose invocation
always raises gets the corresponding failed Result. -/
theorem c4_amended_fault_isolation (state : AgentState)
    (fpar : String → List (String × Val) → ParOutcome)
    (fseq : String → List (String × Val) → SeqOutcome)
    (hnd : (planIds state.actions).Nodup)
    (hclosed : depsClosed state.actions)
    (hacyclic : acyclicRank state.actions) :
    (∀ a ∈ state.actions,
      ((execute_tools_parallel state fpar).results.lookup a.id) =
        some (future_result (fpar a.tool a.args))) ∧
    (∀ m : String, pyDictGet (future_result (ParOutcome.exn m)) "success"
      = some (Val.vbool false)) ∧
    (pyDictGet (future_result ParOutcome.timeout) "success" = some (Val.vbool false)) ∧
    (∀ a ∈ state.actions,
      (((execute_tools_sequential state fseq).results.lookup a.id)).isSome = true) ∧
    (∀ a ∈ state.actions, ∀ m : String, (∀ args, fseq a.tool args = SeqOutcome.exn m) →
      ((execute_tools_sequential state fseq).results.lookup a.id) =
        some (tool_exec_result (SeqOutcome.exn m))) := by
  obtain ⟨hperm, hordered, hpre⟩ := topological_sort_spec state.actions hnd hclosed hacyclic
  have hnd2 : (state.actions.map (fun a => a.id)).Nodup := hnd
  have hsortnd : ((topological_sort state.actions).map (fun a => a.id)).Nodup :=
    (List.Perm.nodup_iff (hperm.map (fun a => a.id))).mpr hnd2
  have hne : ∀ a ∈ state.actions, state.actions.isEmpty = false := by
    intro a ha
    cases hact : state.actions with
    | nil => rw [hact] at ha; simp at ha
    | cons x xs => rfl
  refine ⟨?_, fun m => rfl, rfl, ?_, ?_⟩
  · intro a ha
    show ((if state.actions.isEmpty then { state with results := state.results }
        else { state with results := (state.actions.foldl
          (fun (res : List (String × Val)) (x : ActionT) =>
            dictSet res x.id (future_result (fpar x.tool x.args)))
          state.results) }).results.lookup a.id) = _
    rw [hne a ha]
    simp only [Bool.false_eq_true, if_false]
    exact foldl_dictSet_lookup (fun x => future_result (fpar x.tool x.args))
      state.actions state.results hnd2 a ha
  · intro a ha
    have hmem : a ∈ topological_sort state.actions := hperm.mem_iff.mpr ha
    show (((if state.actions.isEmpty then { state with results := state.results }
        else { state with results := ((topological_sort state.actions).foldl
          (fun (res : List (String × Val)) (x : ActionT) =>
            dictSet res x.id (tool_exec_result
              (fseq (inject_dependencies x res).tool (inject_dependencies x res).args)))
          state.results) }).results.lookup a.id).isSome) = true
    rw [hne a ha]
    simp only [Bool.false_eq_true, if_false]
    exact foldl_dictSet_dep_isSome
      (fun res x => tool_exec_result
        (fseq (inject_dependencies x res).tool (inject_dependencies x res).args))
      (topological_sort state.actions) state.results a hmem
  · intro a ha m hfail
    have hmem : a ∈ topological_sort state.actions := hperm.mem_iff.mpr ha
    show ((if state.actions.isEmpty then { state with results := state.results }
        else { state with results := ((topological_sort state.actions).foldl
          (fun (res : List (String × Val)) (x : ActionT) =>
            dictSet res x.id (tool_exec_result
              (fseq (inject_dependencies x res).tool (inject_dependencies x res).args)))
          state.results) }).results.lookup a.id) = _
    rw [hne a ha]
    simp only [Bool.false_eq_true, if_false]
    exact foldl_dictSet_dep_const
      (fun res x => tool_exec_result
        (fseq (inject_dependencies x res).tool (inject_dependencies x res).args))
      (topological_sort state.actions) state.results hsortnd a hmem
      (tool_exec_result (SeqOutcome.exn m))
      (fun res => by
        show tool_exec_result
          (fseq (inject_dependencies a res).tool (inject_dependencies a res).args) = _
        rw [show (inject_dependencies a res).tool = a.tool from rfl, hfail])

/-- Witness for C4 (amended) on the two-action chain where exactly the first
action fails (timeout in the parallel path, exception in the sequential
path). -/
theorem c4_amended_fault_isolation_witness :
    (∀ a ∈ chain_state.actions,
      ((execute_tools_parallel chain_state chain_par_executor).results.lookup a.id) =
        some (future_result (chain_par_executor a.tool a.args))) ∧
    (∀ m : String, pyDictGet (future_result (ParOutcome.exn m)) "success"
      = some (Val.vbool false)) ∧
    (pyDictGet (future_result ParOutcome.timeout) "success" = some (Val.vbool false)) ∧
    (∀ a ∈ chain_state.actions,
      (((execute_tools_sequential chain_state chain_seq_executor).results.lookup a.id)).isSome
        = true) ∧
    (∀ a ∈ chain_state.actions, ∀ m : String,
      (∀ args, chain_seq_executor a.tool args = SeqOutcome.exn m) →
      ((execute_tools_sequential chain_state chain_seq_executor).results.lookup a.id) =
        some (tool_exec_result (SeqOutcome.exn m))) :=
  c4_amended_fault_isolation chain_state chain_par_executor chain_seq_executor
    (by decide) (by unfold depsClosed; decide)
    (by unfold acyclicRank; exact ⟨chain_rank, by decide⟩)

-- ─────────────────────────────────────────────────────────────────────────────
-- Injectivity of the planner's generated ids
-- ─────────────────────────────────────────────────────────────────────────────

theorem toDigitsCore_decode : ∀ (fuel n : Nat) (acc : List Char), n < fuel →
    ∃ ds : List Char, Nat.toDigitsCore 10 fuel n acc = ds ++ acc ∧ decodeDigits ds = n := by
  intro fuel
  induction fuel with
  | zero => omega
  | succ f ih =>
    intro n acc hn
    unfold Nat.toDigitsCore
    by_cases h10 : n / 10 = 0
    · refine ⟨[Nat.digitChar (n % 10)], by simp [h10], ?_⟩
      have hlt : n % 10 = n := by omega
      simp only [decodeDigits, List.foldl]
      have hv : ∀ m, m < 10 → (Nat.digitChar m).toNat - 48 = m := by decide
      rw [hlt] at *
      simpa using hv n (by omega)
    · have hdiv_lt : n / 10 < f := by
        have h1 : n / 10 < n := Nat.div_lt_self (by omega) (by norm_num)
        omega
      obtain ⟨ds, hds, hdec⟩ := ih (n / 10) (Nat.digitChar (n % 10) :: acc) hdiv_lt
      simp only [h10, if_neg h10]
      refine ⟨ds ++ [Nat.digitChar (n % 10)], ?_, ?_⟩
      · simpa [List.append_assoc] using hds
      · have hm : n % 10 < 10 := Nat.mod_lt _ (by norm_num)
        have hv : (Nat.digitChar (n % 10)).toNat - 48 = n % 10 := by
          have hall : ∀ m, m < 10 → (Nat.digitChar m).toNat - 48 = m := by decide
          exact hall _ hm
        have hsplit : decodeDigits (ds ++ [Nat.digitChar (n % 10)]) =
            decodeDigits ds * 10 + ((Nat.digitChar (n % 10)).toNat - 48) := by
          simp [decodeDigits, List.foldl_append]
        rw [hsplit, hdec, hv]
        omega

theorem natRepr_injective : ∀ m n : Nat, Nat.repr m = Nat.repr n → m = n := by
  intro m n h
  obtain ⟨dm, hdm, hdecm⟩ := toDigitsCore_decode (m + 1) m [] (by omega)
  obtain ⟨dn, hdn, hdecn⟩ := toDigitsCore_decode (n + 1) n [] (by omega)
  have hm : Nat.repr m = (dm ++ []).asString := by
    rw [← hdm]
    rfl
  have hn : Nat.repr n = (dn ++ []).asString := by
    rw [← hdn]
    rfl
  rw [hm, hn] at h
  have hdata : dm ++ [] = dn ++ [] := congrArg String.data h
  simp only [List.append_nil] at hdata
  rw [← hdecm, ← hdecn, hdata]

theorem mkId_injective : ∀ m n : Nat,
    ("a" ++ Nat.repr m : String) = ("a" ++ Nat.repr n : String) → m = n := by
  intro m n h
  apply natRepr_injective
  have hdata : ('a' :: (Nat.repr m).data) = ('a' :: (Nat.repr n).data) := by
    have := congrArg String.data h
    simpa [String.data_append] using this
  have : (Nat.repr m).data = (Nat.repr n).data := by
    injection hdata
  cases hm : Nat.repr m with
  | mk dm =>
    cases hn : Nat.repr n with
    | mk dn =>
      rw [hm, hn] at this
      simp only [] at this
      rw [this]

-- ─────────────────────────────────────────────────────────────────────────────
-- Planner invariants
-- ─────────────────────────────────────────────────────────────────────────────

theorem plan_fold_inv (invoke_result : String → List (String × Val) → Val) :
    ∀ (calls : List MetaCall) (acc : PlanAcc),
      (∀ a ∈ acc.actions, a.depends_on = []) →
      (acc.actions.map (fun a => a.id) =
        (List.range acc.actions.length).map (fun i => "a" ++ Nat.repr (i + 1))) →
      (acc.requires_confirmation = false →
        ∀ a ∈ acc.actions, ((acc.results.lookup a.id).isSome = true)) →
      (∀ a ∈ (calls.foldl (plan_step invoke_result) acc).actions, a.depends_on = []) ∧
      ((calls.foldl (plan_step invoke_result) acc).actions.map (fun a => a.id) =
        (List.range (calls.foldl (plan_step invoke_result) acc).actions.length).map
          (fun i => "a" ++ Nat.repr (i + 1))) ∧
      ((calls.foldl (plan_step invoke_result) acc).requires_confirmation = false →
        ∀ a ∈ (calls.foldl (plan_step invoke_result) acc).actions,
          (((calls.foldl (plan_step invoke_result) acc).results.lookup a.id).isSome = true)) := by
  intro calls
  induction calls with
  | nil => intro acc h1 h2 h3; exact ⟨h1, h2, h3⟩
  | cons call rest ih =>
    intro acc h1 h2 h3
    simp only [List.foldl_cons]
    apply ih
    · -- depends_on stays empty
      intro a ha
      cases call with
      | discover cats acts q => exact h1 a ha
      | schema t => exact h1 a ha
      | unknownTool t => exact h1 a ha
      | invoke tool params =>
        simp only [plan_step] at ha
        by_cases hdt : DESTRUCTIVE_TOOLS.contains tool
        · rw [if_pos hdt] at ha
          simp only [List.mem_append, List.mem_singleton] at ha
          rcases ha with h | rfl
          · exact h1 a h
          · rfl
        · rw [if_neg hdt] at ha
          simp only [List.mem_append, List.mem_singleton] at ha
          rcases ha with h | rfl
          · exact h1 a h
          · rfl
    · -- ids keep the a{n} shape
      cases call with
      | discover cats acts q => exact h2
      | schema t => exact h2
      | unknownTool t => exact h2
      | invoke tool params =>
        simp only [plan_step]
        by_cases hdt : DESTRUCTIVE_TOOLS.contains tool
        · rw [if_pos hdt]
          simp only [List.map_append, List.length_append, List.map_cons, List.map_nil,
            List.length_cons, List.length_nil]
          rw [h2, List.range_succ]
          simp
        · rw [if_neg hdt]
          simp only [List.map_append, List.length_append, List.map_cons, List.map_nil,
            List.length_cons, List.length_nil]
          rw [h2, List.range_succ]
          simp
    · -- executed results are recorded for every action while no confirmation is pending
      cases call with
      | discover cats acts q => exact h3
      | schema t => exact h3
      | unknownTool t => exact h3
      | invoke tool params =>
        simp only [plan_step]
        by_cases hdt : DESTRUCTIVE_TOOLS.contains tool
        · rw [if_pos hdt]
          intro hfalse
          simp at hfalse
        · rw [if_neg hdt]
          intro hreq a ha
          simp only [List.mem_append, List.mem_singleton] at ha
          rcases ha with h | rfl
          · exact lookup_dictSet_isSome_mono _ _ _ _ (h3 hreq a h)
          · rw [lookup_dictSet_self]
            rfl

theorem mkId_succ_injective : Function.Injective (fun i : Nat => "a" ++ Nat.repr (i + 1)) := by
  intro m n h
  have := mkId_injective (m + 1) (n + 1) h
  omega

theorem plan_ids_nodup (actions : List ActionT)
    (h : actions.map (fun a => a.id) =
      (List.range actions.length).map (fun i => "a" ++ Nat.repr (i + 1))) :
    (planIds actions).Nodup := by
  show (actions.map (fun a => a.id)).Nodup
  rw [h]
  exact (List.nodup_range _).map mkId_succ_injective

theorem route_not_sequential (s : AgentState)
    (hdeps : ∀ a ∈ s.actions, a.depends_on = []) :
    (route_execution s).execution_mode ≠ "sequential" := by
  have hany : (s.actions.any (fun a => !a.depends_on.isEmpty)) = false := by
    rw [List.any_eq_false]
    intro a ha
    rw [hdeps a ha]
    simp
  show (if s.requires_confirmation then "confirm"
    else if s.actions.any (fun a => !a.depends_on.isEmpty) then "sequential"
    else "parallel") ≠ "sequential"
  rw [hany]
  by_cases hr : s.requires_confirmation
  · rw [if_pos hr]
    decide
  · rw [if_neg hr]
    simp

theorem execute_parallel_lookup (state : AgentState)
    (f : String → List (String × Val) → ParOutcome)
    (hnd2 : (state.actions.map (fun a => a.id)).Nodup) :
    ∀ a ∈ state.actions,
      ((execute_tools_parallel state f).results.lookup a.id) =
        some (future_result (f a.tool a.args)) := by
  intro a ha
  have hne : state.actions.isEmpty = false := by
    cases hact : state.actions with
    | nil => rw [hact] at ha; simp at ha
    | cons x xs => rfl
  show ((if state.actions.isEmpty then { state with results := state.results }
      else { state with results := (state.actions.foldl
        (fun (res : List (String × Val)) (x : ActionT) =>
          dictSet res x.id (future_result (f x.tool x.args)))
        state.results) }).results.lookup a.id) = _
  rw [hne]
  simp only [Bool.false_eq_true, if_false]
  exact foldl_dictSet_lookup (fun x => future_result (f x.tool x.args))
    state.actions state.results hnd2 a ha

theorem legacy_loop_inv (invoke_result : String → List (String × Val) → Val) :
    ∀ (fuel : Nat) (iters : List (List MetaCall)) (acc : PlanAcc),
      (∀ a ∈ acc.actions, a.depends_on = []) →
      (acc.actions.map (fun a => a.id) =
        (List.range acc.actions.length).map (fun i => "a" ++ Nat.repr (i + 1))) →
      (acc.requires_confirmation = false →
        ∀ a ∈ acc.actions, ((acc.results.lookup a.id).isSome = true)) →
      (∀ a ∈ (legacy_loop invoke_result fuel iters acc).actions, a.depends_on = []) ∧
      ((legacy_loop invoke_result fuel iters acc).actions.map (fun a => a.id) =
        (List.range (legacy_loop invoke_result fuel iters acc).actions.length).map
          (fun i => "a" ++ Nat.repr (i + 1))) ∧
      ((legacy_loop invoke_result fuel iters acc).requires_confirmation = false →
        ∀ a ∈ (legacy_loop invoke_result fuel iters acc).actions,
          (((legacy_loop invoke_result fuel iters acc).results.lookup a.id).isSome = true)) := by
  intro fuel
  induction fuel with
  | zero => intro iters acc h1 h2 h3; exact ⟨h1, h2, h3⟩
  | succ f ih =>
    intro iters acc h1 h2 h3
    cases iters with
    | nil => exact ⟨h1, h2, h3⟩
    | cons calls rest =>
      have hred : legacy_loop invoke_result (f + 1) (calls :: rest) acc =
          if calls.isEmpty then acc
          else legacy_loop invoke_result f rest (calls.foldl (plan_step invoke_result) acc) := rfl
      rw [hred]
      cases hemp : calls.isEmpty with
      | true =>
        simp only [if_true]
        exact ⟨h1, h2, h3⟩
      | false =>
        simp only [Bool.false_eq_true, if_false]
        obtain ⟨g1, g2, g3⟩ := plan_fold_inv invoke_result calls acc h1 h2 h3
        exact ih rest (calls.foldl (plan_step invoke_result) acc) g1 g2 g3

/-- C9: every action emitted by either planner strategy has an empty
`depends_on` and an id of the form `a{position}` (hence ids unique within
the plan), and consequently the router never picks the sequential mode for a
planner-produced plan. -/
theorem c9_planner_emits_independent_actions (state : AgentState)
    (invoke_result : String → List (String × Val) → Val)
    (planned_calls : List MetaCall) (iterations : List (List MetaCall)) :
    ((∀ a ∈ (plan_actions_dspy state invoke_result planned_calls).actions,
        a.depends_on = []) ∧
      ((plan_actions_dspy state invoke_result planned_calls).actions.map (fun a => a.id) =
        (List.range (plan_actions_dspy state invoke_result planned_calls).actions.length).map
          (fun i => "a" ++ Nat.repr (i + 1))) ∧
      (planIds (plan_actions_dspy state invoke_result planned_calls).actions).Nodup ∧
      (route_execution (plan_actions_dspy state invoke_result planned_calls)).execution_mode
        ≠ "sequential") ∧
    ((∀ a ∈ (plan_actions_legacy state invoke_result iterations).actions,
        a.depends_on = []) ∧
      ((plan_actions_legacy state invoke_result iterations).actions.map (fun a => a.id) =
        (List.range (plan_actions_legacy state invoke_result iterations).actions.length).map
          (fun i => "a" ++ Nat.repr (i + 1))) ∧
      (planIds (plan_actions_legacy state invoke_result iterations).actions).Nodup ∧
      (route_execution (plan_actions_legacy state invoke_result iterations)).execution_mode
        ≠ "sequential") := by
  obtain ⟨d1, d2, d3⟩ := plan_fold_inv invoke_result planned_calls {}
    (by intro a ha; simp [PlanAcc] at ha) rfl
    (by intro _ a ha; simp [PlanAcc] at ha)
  obtain ⟨l1, l2, l3⟩ := legacy_loop_inv invoke_result 10 iterations {}
    (by intro a ha; simp [PlanAcc] at ha) rfl
    (by intro _ a ha; simp [PlanAcc] at ha)
  exact ⟨⟨d1, d2, plan_ids_nodup _ d2,
      route_not_sequential (plan_actions_dspy state invoke_result planned_calls) d1⟩,
    ⟨l1, l2, plan_ids_nodup _ l2,
      route_not_sequential (plan_actions_legacy state invoke_result iterations) l1⟩⟩

/-- C10: for a plan whose action already has a recorded result under its id
(as the planner leaves every non-destructive action it ran during planning),
the parallel executor still submits that action's tool call again and
overwrites the stored result with the fresh outcome; and along the graph's
plan → route → execute_parallel leg, every action of an unconfirmed
DSPy-planned plan has a planner-recorded result and then a
fresh executor-recorded result — i.e. the tool is invoked twice per turn. -/
theorem c10_parallel_reexecutes_planned_actions (state : AgentState)
    (invoke_result : String → List (String × Val) → Val)
    (planned_calls : List MetaCall)
    (tool_executor : String → List (String × Val) → ParOutcome) :
    ((planIds state.actions).Nodup →
      ∀ a ∈ state.actions, ∀ old : Val, state.results.lookup a.id = some old →
        ((a.id, a.tool, a.args) ∈ parallel_submissions state ∧
          (execute_tools_parallel state tool_executor).results.lookup a.id =
            some (future_result (tool_executor a.tool a.args)))) ∧
    ((plan_actions_dspy state invoke_result planned_calls).requires_confirmation = false →
      route_after_execution
          (route_execution (plan_actions_dspy state invoke_result planned_calls)) =
        "execute_parallel" ∧
      ∀ a ∈ (plan_actions_dspy state invoke_result planned_calls).actions,
        (((plan_actions_dspy state invoke_result planned_calls).results.lookup a.id).isSome
            = true) ∧
        ((run_parallel_turn state invoke_result planned_calls tool_executor).results.lookup
            a.id) = some (future_result (tool_executor a.tool a.args))) := by
  constructor
  · intro hnd a ha old hold
    exact ⟨List.mem_map_of_mem _ ha,
      execute_parallel_lookup state tool_executor hnd a ha⟩
  · intro hreq
    obtain ⟨d1, d2, d3⟩ := plan_fold_inv invoke_result planned_calls {}
      (by intro a ha; simp [PlanAcc] at ha) rfl
      (by intro _ a ha; simp [PlanAcc] at ha)
    have hany : ((plan_actions_dspy state invoke_result planned_calls).actions.any
        (fun a => !a.depends_on.isEmpty)) = false := by
      rw [List.any_eq_false]
      intro a ha
      rw [d1 a ha]
      simp
    have hmode : (route_execution
        (plan_actions_dspy state invoke_result planned_calls)).execution_mode = "parallel" := by
      show (if (plan_actions_dspy state invoke_result planned_calls).requires_confirmation
          then "confirm"
        else if (plan_actions_dspy state invoke_result planned_calls).actions.any
            (fun a => !a.depends_on.isEmpty) then "sequential"
        else "parallel") = "parallel"
      rw [hreq, hany]
      simp
    have hroute : route_after_execution
        (route_execution (plan_actions_dspy state invoke_result planned_calls)) =
        "execute_parallel" := by
      show (if (route_execution
            (plan_actions_dspy state invoke_result planned_calls)).execution_mode == "confirm"
          then "confirm_actions"
        else if (route_execution
            (plan_actions_dspy state invoke_result planned_calls)).execution_mode
              == "sequential" then "execute_sequential"
        else "execute_parallel") = "execute_parallel"
      rw [hmode]
      rfl
    refine ⟨hroute, fun a ha => ⟨d3 hreq a ha, ?_⟩⟩
    have hrun : run_parallel_turn state invoke_result planned_calls tool_executor =
        execute_tools_parallel
          (route_execution (plan_actions_dspy state invoke_result planned_calls))
          tool_executor := by
      show (if route_after_execution
            (route_execution (plan_actions_dspy state invoke_result planned_calls))
              == "execute_parallel"
          then execute_tools_parallel
            (route_execution (plan_actions_dspy state invoke_result planned_calls))
            tool_executor
        else route_execution (plan_actions_dspy state invoke_result planned_calls)) = _
      rw [hroute]
      rfl
    rw [hrun]
    exact execute_parallel_lookup
      (route_execution (plan_actions_dspy state invoke_result planned_calls))
      tool_executor (plan_ids_nodup _ d2) a ha

/-- C10 at the replay fixtures: the stale `a3` result is overwritten by a
fresh submission, and the one-call DSPy turn records `a1` once during
planning and again during parallel execution. -/
theorem c10_parallel_reexecutes_planned_actions_witness :
    ((("a3", "list_tasks", ([] : List (String × Val))) ∈ parallel_submissions replay_state ∧
        (execute_tools_parallel replay_state replay_executor).results.lookup "a3" =
          some (future_result (replay_executor "list_tasks" []))) ∧
      (route_after_execution
          (route_execution (plan_actions_dspy replay_state replay_invoke_result replay_calls)) =
        "execute_parallel" ∧
        (((plan_actions_dspy replay_state replay_invoke_result replay_calls).results.lookup
            "a1").isSome = true) ∧
        ((run_parallel_turn replay_state replay_invoke_result replay_calls
            replay_executor).results.lookup "a1") =
          some (future_result (replay_executor "list_tasks" [])))) := by
  have h := c10_parallel_reexecutes_planned_actions replay_state replay_invoke_result
    replay_calls replay_executor
  have ha := h.1 (by decide) fault_a3 (List.mem_singleton.mpr rfl)
    (Val.vdict [("success", Val.vbool true), ("message", Val.vstr "stale")]) rfl
  have hb := h.2 rfl
  have hc := hb.2 replay_planned_action (List.mem_singleton.mpr rfl)
  exact ⟨⟨ha.1, ha.2⟩, hb.1, hc.1, hc.2⟩
